import Mathlib

/-!
Shallow embedding of the sudidakt sudoku deduction engine.

Conventions used throughout this development:
* a digit is a `Nat` in `1..=9` (the Rust `Digit` type guarantees this range
  by construction; theorems about digits therefore carry `1 ≤ d` / `d ≤ 9`
  hypotheses where the Rust type system enforces them);
* a cell index is a `Nat` in `0..=80` (the Rust `CellIndex` bound);
* a `DigitSet` is a `Nat` bitmask mirroring the Rust `u16` bitmask, with bit
  `d - 1` standing for digit `d`; reachable values are always `< 512`;
* a `GroupSet` is a `Nat` bitmask over the 27 group indices (Rust `u64`);
* a `CellSet` is a `Nat` bitmask over the 81 cell indices (Rust `u128`);
* Rust panics (assertion failures, `unwrap`/`expect` on `None`) are modelled
  by `Except PanicKind`; the one exception is `DigitCounter::decrement`,
  modelled as truncated subtraction, whose zero-counter panic branch is shown
  unreachable by the counter-coherence invariant proved below.
-/

namespace Sudidakt

/-- `DIMENSION` from `model/dimension.rs`: the grid is 9 by 9. -/
def DIMENSION : Nat := 9

/-- `SQUARE_DIMENSION` from `model/dimension.rs`. -/
def SQUARE_DIMENSION : Nat := 3

/-! ### DigitSet (`model/digit_set.rs`), bitmask over digits 1..=9 -/

/-- `DigitSet::full()`: all nine digit bits set, `(1 << 9) - 1`. -/
def dsFull : Nat := 511

/-- Internal mask of a digit: bit `digit - 1` (`DigitSet::mask`). -/
def dsMask (d : Nat) : Nat := 1 <<< (d - 1)

/-- `DigitSet::has`. -/
def dsHas (s d : Nat) : Bool := s &&& dsMask d != 0

/-- `DigitSet::add`. -/
def dsAdd (s d : Nat) : Nat := s ||| dsMask d

/-- `DigitSet::remove`: `self.0 &= !mask`, with `!` the 16-bit complement. -/
def dsRemove (s d : Nat) : Nat := s &&& (65535 ^^^ dsMask d)

/-- `DigitSet::size`: `count_ones` of the 16-bit word. -/
def dsSize (s : Nat) : Nat := (List.range 16).countP (fun i => s.testBit i)

/-- `DigitSet::is_subset_of`: `self.0 | other.0 == other.0`. -/
def dsSubsetOf (s t : Nat) : Bool := s ||| t == t

/-- Ascending list of members of a digit set, as produced by
`DigitSetIterator` (repeated `trailing_zeros`, so ascending order;
the iterator stops at bit 9 because `Digit::new` rejects values above 9,
and reachable sets never have such bits). -/
def dsToList (s : Nat) : List Nat :=
  (List.range 9).filterMap (fun i => if s.testBit i then some (i + 1) else none)

/-! ### Cell coordinates and groups (`model/index.rs`, `model/group.rs`) -/

/-- `CellIndex::row`: `value / DIMENSION`. -/
def rowOf (c : Nat) : Nat := c / 9

/-- `CellIndex::column`: `value % DIMENSION`. -/
def colOf (c : Nat) : Nat := c % 9

/-- `SquareIndex::from_coordinates` applied to a cell's row and column. -/
def squareOf (c : Nat) : Nat := 3 * (rowOf c / 3) + colOf c / 3

/-- `Group` from `model/group.rs`: a tagged column, row, or square index. -/
inductive Group where
  | column : Nat → Group
  | row : Nat → Group
  | square : Nat → Group
deriving DecidableEq, Repr

/-- `Group::index`: columns are 0..9, rows 9..18, squares 18..27. -/
def Group.index : Group → Nat
  | .column i => i
  | .row i => 9 + i
  | .square i => 18 + i

/-- `Group::new`: the group matching a group index. -/
def groupOfIndex (i : Nat) : Group :=
  if i < 9 then .column i
  else if i < 18 then .row (i - 9)
  else .square (i - 18)

/-- `Group::groups(cell)`: the column, row and square covering a cell. -/
def groupsOf (c : Nat) : List Group :=
  [.column (colOf c), .row (rowOf c), .square (squareOf c)]

/-- `Group::contains`. -/
def Group.containsCell : Group → Nat → Bool
  | .column i, c => colOf c == i
  | .row i, c => rowOf c == i
  | .square i, c => squareOf c == i

/-- `Group::cells`: the nine cells of a group, in the order the Rust code
fills its array (rows ascending for a column, columns ascending for a row,
row-major within a square). -/
def Group.cellList : Group → List Nat
  | .column i => (List.range 9).map (fun r => 9 * r + i)
  | .row r => (List.range 9).map (fun j => 9 * r + j)
  | .square q =>
      ((List.range 3).map (fun a =>
        (List.range 3).map (fun b => 9 * (3 * (q / 3) + a) + (3 * (q % 3) + b)))).flatten

/-- `Group::other_groups(cell)`: the two other groups covering the cell, as
the `[Group; 2]` array the Rust code returns.  The Rust function asserts that
the group contains the cell; every call site below passes a cell of the
group, so the assertion branch is unreachable and the function is modelled
total. -/
def Group.otherGroups : Group → Nat → Group × Group
  | .column _, c => (.row (rowOf c), .square (squareOf c))
  | .row _, c => (.column (colOf c), .square (squareOf c))
  | .square _, c => (.column (colOf c), .row (rowOf c))

/-- All 27 groups in `GroupIndex` order (9 columns, 9 rows, 9 squares). -/
def allGroups : List Group :=
  (List.range 27).map groupOfIndex

/-! ### GroupSet (`model/group_set.rs`) and CellSet (`model/cell_set.rs`) -/

/-- `GroupSet::add`. -/
def gsAdd (s : Nat) (g : Group) : Nat := s ||| (1 <<< g.index)

/-- `GroupSet::size` (`count_ones` of the `u64` word; reachable sets only
ever use the 27 group bits). -/
def gsSize (s : Nat) : Nat := (List.range 27).countP (fun i => s.testBit i)

/-- First member of a group set, as `GroupSetIterator` yields it (lowest set
bit first). `none` when the set is empty, where the Rust `expect` panics. -/
def gsFirst (s : Nat) : Option Group :=
  ((List.range 27).find? (fun i => s.testBit i)).map groupOfIndex

/-- `CellSet::from(cell)` then `CellSet::add`: bitmask over cells. -/
def csAdd (s : Nat) (c : Nat) : Nat := s ||| (1 <<< c)

/-- `CellSet::has`. -/
def csHas (s c : Nat) : Bool := s &&& (1 <<< c) != 0

/-- `CellSet::size`. -/
def csSize (s : Nat) : Nat := (List.range 81).countP (fun i => s.testBit i)

/-! ### PossibleValues (`solver/possible_values.rs`) -/

/-- `PossibleValues`: 81 per-cell digit sets and 27 per-group digit counters.
Counters are flattened: index `9 * group_index + (digit - 1)`. -/
structure PossibleValues where
  cells : List Nat
  counters : List Nat
deriving DecidableEq, Repr

/-- `PossibleValues::all()`: every digit possible everywhere, every counter
at `DIMENSION`. -/
def pvAll : PossibleValues :=
  ⟨List.replicate 81 dsFull, List.replicate 243 9⟩

/-- `PossibleValues::of_cell`. -/
def ofCell (pv : PossibleValues) (c : Nat) : Nat := pv.cells.getD c 0

/-- `PossibleValues::of_group(group).count(digit)`: the denormalized counter
of a digit within a group. -/
def ofGroupCount (pv : PossibleValues) (g : Group) (d : Nat) : Nat :=
  pv.counters.getD (9 * g.index + (d - 1)) 0

/-- `DigitCounter::decrement` for one group, as truncated subtraction.  The
Rust code asserts the counter is non-zero; the coherence invariant proved
below shows the counter is positive whenever the engine decrements it, so
the panic branch is unreachable on reachable states. -/
def decrementCounter (counters : List Nat) (g : Group) (d : Nat) : List Nat :=
  let i := 9 * g.index + (d - 1)
  counters.set i (counters.getD i 0 - 1)

/-- `PossibleValues::remove_possibility`: if the digit is absent, a no-op
returning `none`; otherwise remove it from the cell and decrement the
digit's counter in each of the cell's three covering groups. -/
def removePossibility (pv : PossibleValues) (c d : Nat) : PossibleValues × Option Nat :=
  let slot := ofCell pv c
  if dsHas slot d then
    ({ cells := pv.cells.set c (dsRemove slot d),
       counters := (groupsOf c).foldl (fun cnt g => decrementCounter cnt g d) pv.counters },
     some d)
  else
    (pv, none)

/-- One iteration of the loop of `PossibleValues::resolve`: remove the
snapshot digit when it differs from the resolved digit and record it in the
result set. -/
def resolveStep (c d : Nat) (st : PossibleValues × Nat) (e : Nat) : PossibleValues × Nat :=
  if e ≠ d then ((removePossibility st.1 c e).1, dsAdd st.2 e) else st

/-- The loop body of `PossibleValues::resolve`: iterate over a snapshot of
the cell's candidates, removing every digit other than the resolved one and
collecting the removed digits.  Returns the new state and the removed set
(as a digit-set mask). -/
def resolveCore (pv : PossibleValues) (c d : Nat) : PossibleValues × Nat :=
  (dsToList (ofCell pv c)).foldl (resolveStep c d) (pv, 0)

/-- Panics of the Rust code, as modelled error values. -/
inductive PanicKind where
  | resolveAssert
  | expectFailed
  | unwrapFailed
  | outOfFuel
deriving DecidableEq, Repr

/-- `PossibleValues::resolve` with its precondition assertion: panics when
the digit is not currently a candidate of the cell. -/
def resolveChecked (pv : PossibleValues) (c d : Nat) :
    Except PanicKind (PossibleValues × Nat) :=
  if dsHas (ofCell pv c) d then .ok (resolveCore pv c d) else .error .resolveAssert

/-! ### Events (`solver/placement.rs`, `solver/refinement.rs`) -/

/-- `Placement`: a digit finally placed in a cell. -/
structure Placement where
  cell : Nat
  digit : Nat
deriving DecidableEq, Repr

/-- `RefinementReason`: provenance of a candidate removal. -/
inductive RefinementReason where
  | cellExclusion : Nat → RefinementReason
  | groupExclusion : Nat → Group → RefinementReason
  | groupInclusion : Nat → Group → RefinementReason
  | groupOverlap : Group → Group → RefinementReason
  | groupSubsetInclusion : Nat → Nat → Group → RefinementReason
deriving DecidableEq, Repr

/-- `Refinement`: a digit removed from a cell's candidates, with a reason. -/
structure Refinement where
  cell : Nat
  removed : Nat
  reason : RefinementReason
deriving DecidableEq, Repr

/-! ### Journal cursors (`solver/journal.rs`)

The journal's shared storage is modelled as the list of appended events; a
cursor is a private position into it. -/

/-- `JournalCursor::handle_next`: look up the event at the position; when
present, invoke the handler on a clone of it, advance by one, and return the
handler's result; otherwise return nothing and keep the position. -/
def journalHandleNext {α β : Type} (log : List α) (pos : Nat) (handler : α → β) :
    Option β × Nat :=
  match log[pos]? with
  | some e => (some (handler e), pos + 1)
  | none => (none, pos)

/-- `JournalCursor::is_done`: the position has caught up with the length. -/
def journalIsDone {α : Type} (log : List α) (pos : Nat) : Bool := pos == log.length

/-! ### The five analyses (`solver/analyzer.rs`)

Each analysis transforms a pair of the Analyzer's `PossibleValues` and the
refinement journal contents (the `JournalWriter` appends). -/

/-- `Analysis` (solver/analysis.rs), in discriminant order. -/
inductive Analysis where
  | cellExclusion
  | groupExclusion
  | groupInclusion
  | groupOverlap
  | groupSubsetInclusion
deriving DecidableEq, Repr

/-- `ALL_ANALYSES`: all five analyses, from cheapest to most expensive. -/
def ALL_ANALYSES : List Analysis :=
  [.cellExclusion, .groupExclusion, .groupInclusion, .groupOverlap, .groupSubsetInclusion]

/-- `CellExclusion::analyze_next_placement`: resolve the placed cell and log
one refinement per digit thereby removed. -/
def cellExclusionOnPlacement (st : PossibleValues × List Refinement) (p : Placement) :
    Except PanicKind (PossibleValues × List Refinement) := do
  let (pv, removedMask) ← resolveChecked st.1 p.cell p.digit
  .ok (pv, st.2 ++ (dsToList removedMask).map
        (fun r => ⟨p.cell, r, .cellExclusion p.digit⟩))

/-- `if let Some(digit) = remove_possibility { append }`: remove a candidate
and log the refinement when the removal actually happened. -/
def removeLogged (st : PossibleValues × List Refinement) (c d : Nat)
    (reason : RefinementReason) : PossibleValues × List Refinement :=
  match removePossibility st.1 c d with
  | (pv, some _) => (pv, st.2 ++ [⟨c, d, reason⟩])
  | (pv, none) => (pv, st.2)

/-- `GroupExclusion::analyze_next_placement`: remove the placed digit from
every other cell of the three covering groups. -/
def groupExclusionOnPlacement (st : PossibleValues × List Refinement) (p : Placement) :
    PossibleValues × List Refinement :=
  (groupsOf p.cell).foldl
    (fun st g =>
      g.cellList.foldl
        (fun st other =>
          if other = p.cell then st
          else removeLogged st other p.digit (.groupExclusion p.cell g))
        st)
    st

/-- `GroupInclusion::analyze_next_refinement`: for each covering group whose
counter for the removed digit is exactly 1, resolve the unique remaining
cell holding it (the `expect` panics when no such cell exists). -/
def groupInclusionOnRefinement (st : PossibleValues × List Refinement) (r : Refinement) :
    Except PanicKind (PossibleValues × List Refinement) :=
  (groupsOf r.cell).foldlM
    (fun st g =>
      if ofGroupCount st.1 g r.removed ≠ 1 then .ok st
      else
        match g.cellList.find? (fun cand => dsHas (ofCell st.1 cand) r.removed) with
        | none => .error .expectFailed
        | some cand => do
            let (pv, removedMask) ← resolveChecked st.1 cand r.removed
            .ok (pv, st.2 ++ (dsToList removedMask).map
                  (fun rem => ⟨cand, rem, .groupInclusion r.removed g⟩)))
    st

/-- The two `GroupSet`s accumulated by `GroupOverlap`: for each cell of the
including group still holding the digit, add its two other covering groups. -/
def overlapSets (pv : PossibleValues) (includer : Group) (d : Nat) : Nat × Nat :=
  includer.cellList.foldl
    (fun ab cand =>
      if dsHas (ofCell pv cand) d then
        (gsAdd ab.1 (includer.otherGroups cand).1, gsAdd ab.2 (includer.otherGroups cand).2)
      else ab)
    (0, 0)

/-- The inner clearing loop of `GroupOverlap`: remove the digit from every
cell of the overlapping group lying outside the including group. -/
def overlapClear (st : PossibleValues × List Refinement) (includer og : Group)
    (d : Nat) : PossibleValues × List Refinement :=
  og.cellList.foldl
    (fun st oc =>
      if includer.containsCell oc then st
      else if dsHas (ofCell st.1 oc) d then
        ((removePossibility st.1 oc d).1, st.2 ++ [⟨oc, d, .groupOverlap includer og⟩])
      else st)
    st

/-- Processing of one of the two overlap sets by `GroupOverlap`: skip sets
of size above one, otherwise clear the single group (the `expect` panics on
an empty set). -/
def overlapProcessSet (st : PossibleValues × List Refinement) (includer : Group)
    (d : Nat) (s : Nat) : Except PanicKind (PossibleValues × List Refinement) :=
  if gsSize s > 1 then .ok st
  else
    match gsFirst s with
    | none => .error .expectFailed
    | some og => .ok (overlapClear st includer og d)

/-- The body of `GroupOverlap` for one including group: skip when the
group's counter exceeds `SQUARE_DIMENSION`, or when no cell of the group
holds the digit; otherwise process the two overlap sets in order. -/
def groupOverlapIncluderStep (st : PossibleValues × List Refinement) (d : Nat)
    (includer : Group) : Except PanicKind (PossibleValues × List Refinement) :=
  if ofGroupCount st.1 includer d > SQUARE_DIMENSION then .ok st
  else
    let ab := overlapSets st.1 includer d
    if ab.1 == 0 then .ok st
    else do
      let st ← overlapProcessSet st includer d ab.1
      overlapProcessSet st includer d ab.2

/-- `GroupOverlap::analyze_next_refinement`. -/
def groupOverlapOnRefinement (st : PossibleValues × List Refinement) (r : Refinement) :
    Except PanicKind (PossibleValues × List Refinement) :=
  (groupsOf r.cell).foldlM (fun st g => groupOverlapIncluderStep st r.removed g) st

/-- The digit-removal loop of `GroupSubsetInclusion`: remove every digit of
the subset from every group cell outside the cell subset. -/
def gsiRemoveLoop (st : PossibleValues × List Refinement)
    (cellsSubset digitsSubset : Nat) (g : Group) : PossibleValues × List Refinement :=
  g.cellList.foldl
    (fun st cand =>
      if csHas cellsSubset cand then st
      else
        (dsToList digitsSubset).foldl
          (fun st dg =>
            if dsHas (ofCell st.1 cand) dg then
              ((removePossibility st.1 cand dg).1,
               st.2 ++ [⟨cand, dg, .groupSubsetInclusion cellsSubset digitsSubset g⟩])
            else st)
          st)
    st

/-- `GroupSubsetInclusion::analyze_next_cell`: look for a naked subset
anchored at the cell's candidate set (sizes 2 to `DIMENSION / 2` only). -/
def analyzeNextCell (st : PossibleValues × List Refinement) (cell : Nat) :
    PossibleValues × List Refinement :=
  let digitsSubset := ofCell st.1 cell
  if dsSize digitsSubset ≤ 1 then st
  else if dsSize digitsSubset > DIMENSION / 2 then st
  else
    (groupsOf cell).foldl
      (fun st g =>
        let cellsSubset := g.cellList.foldl
          (fun cs cand =>
            if cand = cell then cs
            else if dsSubsetOf (ofCell st.1 cand) digitsSubset then csAdd cs cand
            else cs)
          (csAdd 0 cell)
        if csSize cellsSubset ≠ dsSize digitsSubset then st
        else gsiRemoveLoop st cellsSubset digitsSubset g)
      st

/-- `GroupSubsetInclusion::analyze_next_refinement`: re-examine the refined
cell, then every group-sharing cell still holding the removed digit. -/
def groupSubsetInclusionOnRefinement (st : PossibleValues × List Refinement)
    (r : Refinement) : PossibleValues × List Refinement :=
  let st := analyzeNextCell st r.cell
  (groupsOf r.cell).foldl
    (fun st g =>
      g.cellList.foldl
        (fun st cell =>
          if dsHas (ofCell st.1 cell) r.removed then analyzeNextCell st cell else st)
        st)
    st

/-- Dispatch of `analyze_next_placement` over the analyses; the trait default
is a no-op for the three analyses that ignore placements. -/
def placementHandler (a : Analysis) (st : PossibleValues × List Refinement)
    (p : Placement) : Except PanicKind (PossibleValues × List Refinement) :=
  match a with
  | .cellExclusion => cellExclusionOnPlacement st p
  | .groupExclusion => .ok (groupExclusionOnPlacement st p)
  | _ => .ok st

/-- Dispatch of `analyze_next_refinement` over the analyses; the trait
default is a no-op for the two analyses that ignore refinements. -/
def refinementHandler (a : Analysis) (st : PossibleValues × List Refinement)
    (r : Refinement) : Except PanicKind (PossibleValues × List Refinement) :=
  match a with
  | .groupInclusion => groupInclusionOnRefinement st r
  | .groupOverlap => groupOverlapOnRefinement st r
  | .groupSubsetInclusion => .ok (groupSubsetInclusionOnRefinement st r)
  | _ => .ok st

/-! ### Analyzer, Placer and their shared core state -/

/-- The five positions of one of the Analyzer's `JournalMultiCursor`s. -/
structure Cursors where
  ce : Nat
  ge : Nat
  gi : Nat
  go : Nat
  gsi : Nat
deriving DecidableEq, Repr

def cursorsZero : Cursors := ⟨0, 0, 0, 0, 0⟩

/-- Position of the cursor of an analysis (`Analyzer::cursor_index`). -/
def Cursors.get (cs : Cursors) : Analysis → Nat
  | .cellExclusion => cs.ce
  | .groupExclusion => cs.ge
  | .groupInclusion => cs.gi
  | .groupOverlap => cs.go
  | .groupSubsetInclusion => cs.gsi

/-- Advance one analysis's cursor by one. -/
def Cursors.bump (cs : Cursors) : Analysis → Cursors
  | .cellExclusion => { cs with ce := cs.ce + 1 }
  | .groupExclusion => { cs with ge := cs.ge + 1 }
  | .groupInclusion => { cs with gi := cs.gi + 1 }
  | .groupOverlap => { cs with go := cs.go + 1 }
  | .groupSubsetInclusion => { cs with gsi := cs.gsi + 1 }

/-- The journal-connected core of the engine: the Analyzer's
`PossibleValues` and ten cursor positions, the refinement journal it writes,
the Placer's `PossibleValues` and refinement cursor, and the placement
journal the Placer writes. -/
structure CoreState where
  pvA : PossibleValues
  refJ : List Refinement
  curP : Cursors
  curR : Cursors
  pvP : PossibleValues
  plJ : List Placement
  pCur : Nat
deriving DecidableEq, Repr

/-- The core state as `Analyzer::new` and `Placer::new` build it: both
`PossibleValues` at `all()`, both journals empty, all cursors at zero. -/
def coreInit : CoreState := ⟨pvAll, [], cursorsZero, cursorsZero, pvAll, [], 0⟩

/-- `Analyzer::analyze_next_placement_with`: handle at most one pending
placement with the given analysis, returning the number of refinements
appended (the growth of the refinement journal). -/
def anPlaceStep (a : Analysis) (s : CoreState) : Except PanicKind (CoreState × Nat) :=
  match s.plJ[s.curP.get a]? with
  | none => .ok (s, 0)
  | some p => do
      let (pv, log) ← placementHandler a (s.pvA, s.refJ) p
      .ok ({ s with pvA := pv, refJ := log, curP := s.curP.bump a },
           log.length - s.refJ.length)

/-- `Analyzer::analyze_next_refinement_with`. -/
def anRefineStep (a : Analysis) (s : CoreState) : Except PanicKind (CoreState × Nat) :=
  match s.refJ[s.curR.get a]? with
  | none => .ok (s, 0)
  | some r => do
      let (pv, log) ← refinementHandler a (s.pvA, s.refJ) r
      .ok ({ s with pvA := pv, refJ := log, curR := s.curR.bump a },
           log.length - s.refJ.length)

/-- The loop of `Analyzer::analyze`: placement step then refinement step per
analysis, returning on the first non-zero count. -/
def analyzeGo : List Analysis → CoreState → Except PanicKind (CoreState × Nat)
  | [], s => .ok (s, 0)
  | a :: rest, s => do
      let (s1, r1) ← anPlaceStep a s
      if r1 ≠ 0 then .ok (s1, r1)
      else do
        let (s2, r2) ← anRefineStep a s1
        if r2 ≠ 0 then .ok (s2, r2) else analyzeGo rest s2

/-- `Analyzer::analyze`. -/
def analyze (s : CoreState) : Except PanicKind (CoreState × Nat) :=
  analyzeGo ALL_ANALYSES s

/-- `Analyzer::is_done`: all ten cursors caught up. -/
def analyzerIsDone (s : CoreState) : Bool :=
  ALL_ANALYSES.all (fun a => s.curP.get a == s.plJ.length && s.curR.get a == s.refJ.length)

/-- `Placer::set_digit`: unconditionally resolve the Placer's copy (the
`resolve` assertion panics when the digit is no longer a candidate there)
and append a `Placement`. -/
def placerSetDigit (s : CoreState) (c d : Nat) : Except PanicKind CoreState := do
  let (pv, _) ← resolveChecked s.pvP c d
  .ok { s with pvP := pv, plJ := s.plJ ++ [⟨c, d⟩] }

/-- `Placer::handle_next_refinement`: pull the next refinement if any,
replay the removal on the Placer's copy; on a successful removal leaving at
most one candidate, extract the remaining digit (the `unwrap` panics when
the set was emptied) and append the `Placement`. -/
def placerStep (s : CoreState) : Except PanicKind (CoreState × Option Placement) :=
  match s.refJ[s.pCur]? with
  | none => .ok (s, none)
  | some r =>
      match removePossibility s.pvP r.cell r.removed with
      | (pv, none) => .ok ({ s with pvP := pv, pCur := s.pCur + 1 }, none)
      | (pv, some _) =>
          if dsSize (ofCell pv r.cell) > 1 then
            .ok ({ s with pvP := pv, pCur := s.pCur + 1 }, none)
          else
            match dsToList (ofCell pv r.cell) with
            | [] => .error .unwrapFailed
            | d :: _ =>
                let s' := { s with pvP := pv, pCur := s.pCur + 1, plJ := s.plJ ++ [⟨r.cell, d⟩] }
                .ok (s', some ⟨r.cell, d⟩)

/-- `Placer::is_done`. -/
def placerIsDone (s : CoreState) : Bool := s.pCur == s.refJ.length

/-! ### Grid (`model/grid.rs`) and Solver (`solver/solver.rs`) -/

/-- `Grid`: solved-count plus 81 optional digits. -/
structure Grid where
  count : Nat
  cells : List (Option Nat)
deriving DecidableEq, Repr

/-- `Grid::new()`. -/
def gridEmpty : Grid := ⟨0, List.replicate 81 none⟩

/-- `Grid::get_digit`. -/
def gridGet (g : Grid) (c : Nat) : Option Nat := g.cells.getD c none

/-- `Grid::set_digit`: returns the previous digit; the solved-count moves by
one only when presence changes. -/
def gridSet (g : Grid) (c : Nat) (d : Option Nat) : Grid × Option Nat :=
  let prev := gridGet g c
  let count :=
    if prev.isSome && d.isNone then g.count - 1
    else if prev.isNone && d.isSome then g.count + 1
    else g.count
  (⟨count, g.cells.set c d⟩, prev)

/-- `Grid::get_conflicting`: first other cell of the three covering groups
(columns first, then row, then square) holding the same digit. -/
def getConflicting (g : Grid) (c d : Nat) : Option Nat :=
  ((groupsOf c).map Group.cellList).flatten.find?
    (fun cand => cand != c && gridGet g cand == some d)

/-- `ConflictError` (solver/solver.rs). -/
structure ConflictError where
  digit : Nat
  candidate : Nat
  conflicting : Nat
deriving DecidableEq, Repr

/-- `Solver`: the grid plus the journal-connected core. -/
structure Solver where
  grid : Grid
  core : CoreState
deriving DecidableEq, Repr

/-- `Solver::new`: seed the Placer with every digit present in the input
grid, in ascending cell-index order; no conflict checking happens here. -/
def solverNew (g : Grid) : Except PanicKind Solver := do
  let core ← (List.range 81).foldlM
    (fun core c =>
      match gridGet g c with
      | some d => placerSetDigit core c d
      | none => .ok core)
    coreInit
  .ok ⟨g, core⟩

/-- `Solver::set_digit`: check `get_conflicting` first and return the
conflict without mutating anything; otherwise write the grid and feed the
Placer. -/
def solverSetDigit (s : Solver) (c d : Nat) :
    Except PanicKind (Solver × Option ConflictError) :=
  match getConflicting s.grid c d with
  | some conflicting => .ok (s, some ⟨d, c, conflicting⟩)
  | none => do
      let core ← placerSetDigit s.core c d
      .ok (⟨(gridSet s.grid c (some d)).1, core⟩, none)

/-- The loop of `Solver::place`, with explicit fuel (the loop is bounded by
the refinement journal's length, which `place` never grows). `true` means a
placement was made and mirrored into the grid; `false` is the stalled
result. -/
def placeGo : Nat → Solver → Except PanicKind (Solver × Bool)
  | 0, _ => .error .outOfFuel
  | fuel + 1, s =>
      if placerIsDone s.core then .ok (s, false)
      else do
        let (core, plc?) ← placerStep s.core
        match plc? with
        | some plc => .ok (⟨(gridSet s.grid plc.cell (some plc.digit)).1, core⟩, true)
        | none => placeGo fuel ⟨s.grid, core⟩

/-- `Solver::place`, fuelled with enough budget to reach the journal end. -/
def solverPlace (s : Solver) : Except PanicKind (Solver × Bool) :=
  placeGo (s.core.refJ.length + 1 - s.core.pCur) s

/-- The loop of `Solver::refine`, with explicit fuel. -/
def refineGo : Nat → Solver → Except PanicKind (Solver × Bool)
  | 0, _ => .error .outOfFuel
  | fuel + 1, s =>
      if analyzerIsDone s.core then .ok (s, false)
      else do
        let (core, n) ← analyze s.core
        if n > 0 then .ok (⟨s.grid, core⟩, true)
        else refineGo fuel ⟨s.grid, core⟩

/-- The loop of `Solver::solve`, with explicit fuel: while the grid is not
full, try `place`, else try `refine`, else stall (`false`). -/
def solveGo : Nat → Solver → Except PanicKind (Solver × Bool)
  | 0, _ => .error .outOfFuel
  | fuel + 1, s =>
      if s.grid.count < 81 then do
        let (s1, placed) ← solverPlace s
        if placed then solveGo fuel s1
        else do
          let (s2, refined) ← refineGo (fuel + 1) s1
          if refined then solveGo fuel s2 else .ok (s2, false)
      else .ok (s, true)

/-! ### Claim-side description of `Analyzer::analyze` (for the scheduling
claim): the ten analysis/stream combinations in the documented order, with
an early exit at the first combination appending at least one refinement. -/

/-- One of the two event streams an analysis can consume. -/
inductive StreamKind where
  | placements
  | refinements
deriving DecidableEq, Repr

/-- The ten analysis/stream combinations in the order the spec documents:
five analyses cheapest-first, placements before refinements for each. -/
def comboList : List (Analysis × StreamKind) :=
  [(.cellExclusion, .placements), (.cellExclusion, .refinements),
   (.groupExclusion, .placements), (.groupExclusion, .refinements),
   (.groupInclusion, .placements), (.groupInclusion, .refinements),
   (.groupOverlap, .placements), (.groupOverlap, .refinements),
   (.groupSubsetInclusion, .placements), (.groupSubsetInclusion, .refinements)]

/-- Claim-side scheduling loop: process the combinations in order, each
handling at most one pending event, and return with the count of the first
combination that appends at least one refinement. -/
def analyzeSpecGo : List (Analysis × StreamKind) → CoreState →
    Except PanicKind (CoreState × Nat)
  | [], s => .ok (s, 0)
  | (a, k) :: rest, s => do
      let (s', n) ←
        match k with
        | .placements => anPlaceStep a s
        | .refinements => anRefineStep a s
      if n ≥ 1 then .ok (s', n) else analyzeSpecGo rest s'

/-- Claim-side description of `Analyzer::analyze`. -/
def analyzeSpec (s : CoreState) : Except PanicKind (CoreState × Nat) :=
  analyzeSpecGo comboList s

/-! ### Auxiliary notions and concrete run scripts used by the theorems -/

/-- Two cells share a column, a row, or a square. -/
def sharesGroup (c c' : Nat) : Prop :=
  colOf c' = colOf c ∨ rowOf c' = rowOf c ∨ squareOf c' = squareOf c

instance (c c' : Nat) : Decidable (sharesGroup c c') := by
  unfold sharesGroup
  infer_instance

/-- Build a grid from (cell, digit) pairs via `Grid::set_digit`. -/
def mkGrid (l : List (Nat × Nat)) : Grid :=
  l.foldl (fun g cd => (gridSet g cd.1 (some cd.2)).1) gridEmpty

/-- The panic produced by a run, if any. -/
def runPanic {α : Type} : Except PanicKind α → Option PanicKind
  | .error k => some k
  | .ok _ => none

/-- An input grid that violates the rules of Sudoku: the digit 5 in both
cell 0 (row 0, column 0) and cell 1 (row 0, column 1). -/
def dupGrid : Grid := mkGrid [(0, 5), (1, 5)]

/-- A pointing-pair input: digits 1..6 fill the lower two rows of the
top-left square, confining 7 (and 8, 9) of that square to row 0. -/
def ppGrid : Grid := mkGrid [(9, 1), (10, 2), (11, 3), (18, 4), (19, 5), (20, 6)]

/-- Call `Solver::refine` a fixed number of times. -/
def iterRefine : Nat → Solver → Except PanicKind Solver
  | 0, s => .ok s
  | n + 1, s => do
      let (s', _) ← refineGo 200 s
      iterRefine n s'

/-- A concrete interactive run on `ppGrid`: thirteen `refine` calls (enough
for `GroupOverlap` to clear digit 7 from row 0 outside the top-left square)
followed by one `place` call (which consumes every pending refinement and
stalls). -/
def c6Run : Except PanicKind Solver := do
  let s ← solverNew ppGrid
  let s ← iterRefine 13 s
  let (s, _) ← solverPlace s
  .ok s

/-- Observations of the `c6Run` end state: cell 5 (row 0, column 5) in the
grid, the conflict lookup for digit 7 there, whether 7 is still a candidate
of that cell in the Placer's copy, and the outcome of `set_digit(cell 5, 7)`. -/
def c6Obs : Option (Option Nat × Option Nat × Bool × Option PanicKind) :=
  match c6Run with
  | .error _ => none
  | .ok s =>
      some (gridGet s.grid 5, getConflicting s.grid 5 7,
            dsHas (ofCell s.core.pvP 5) 7, runPanic (solverSetDigit s 5 7))

/-- Structural well-formedness of a `Grid`: 81 slots, every stored digit in
range (the Rust `Digit` type guarantees the range by construction). -/
def gridWf (g : Grid) : Prop :=
  g.cells.length = 81 ∧ ∀ o ∈ g.cells, 1 ≤ o.getD 1 ∧ o.getD 1 ≤ 9

/-! ### GroupOverlap: claim-side description and counterexample data -/

/-- Claim-side (amended) per-set step of `GroupOverlap`: clear the single
group of the set when its size is exactly one, otherwise do nothing. -/
def overlapSpecProcessSet (st : PossibleValues × List Refinement) (includer : Group)
    (d s : Nat) : Except PanicKind (PossibleValues × List Refinement) :=
  if gsSize s = 1 then
    match gsFirst s with
    | none => .error .expectFailed
    | some og => .ok (overlapClear st includer og d)
  else .ok st

/-- Claim-side (amended) description of `GroupOverlap` for one including
group: skip when the counter exceeds 3 or no cell of the group holds the
digit; otherwise clear the single group of each of the two other-group-type
sets whose size is exactly one — both of them when both sets are
singletons. -/
def groupOverlapSpecIncluder (st : PossibleValues × List Refinement) (d : Nat)
    (includer : Group) : Except PanicKind (PossibleValues × List Refinement) :=
  if ofGroupCount st.1 includer d > 3 then .ok st
  else
    let ab := overlapSets st.1 includer d
    if ab.1 == 0 then .ok st
    else
      overlapSpecProcessSet st includer d ab.1 >>= fun st1 =>
        overlapSpecProcessSet st1 includer d ab.2

/-- Claim-side (amended) description of `GroupOverlap` refinement
processing. -/
def groupOverlapSpec (st : PossibleValues × List Refinement) (r : Refinement) :
    Except PanicKind (PossibleValues × List Refinement) :=
  (groupsOf r.cell).foldlM (fun st g => groupOverlapSpecIncluder st r.removed g) st

/-- A `PossibleValues` state in which digit 7 remains possible in column 0
only at cell 0: both other-group-type sets for column 0 collapse to
singletons ({row 0} and {square 0}). -/
def c7PV : PossibleValues :=
  [9, 18, 27, 36, 45, 54, 63, 72].foldl (fun pv c => (removePossibility pv c 7).1) pvAll

/-- A refinement recording one of those removals (cell 72 is in column 0). -/
def c7Refinement : Refinement := ⟨72, 7, .cellExclusion 1⟩

/-- Observations of `GroupOverlap` processing `c7Refinement` on `c7PV`:
column 0's counter for 7, the sizes of the two overlap group-sets for
column 0, and whether the output contains removals guided by column 0 into
row 0 and into square 0. -/
def c7Obs : Option (Nat × Nat × Nat × Bool × Bool) :=
  match groupOverlapOnRefinement (c7PV, []) c7Refinement with
  | .error _ => none
  | .ok st =>
      some (ofGroupCount c7PV (.column 0) 7,
            gsSize (overlapSets c7PV (.column 0) 7).1,
            gsSize (overlapSets c7PV (.column 0) 7).2,
            decide ((⟨1, 7, .groupOverlap (.column 0) (.row 0)⟩ : Refinement) ∈ st.2),
            decide ((⟨10, 7, .groupOverlap (.column 0) (.square 0)⟩ : Refinement) ∈ st.2))

/-! ### The counter-coherence invariant and reachability of PossibleValues -/

/-- The documented `PossibleValues` invariant: for every group and digit,
the denormalized group counter equals the number of cells of the group
whose candidate set still contains the digit. -/
def coherent (pv : PossibleValues) : Prop :=
  ∀ g ∈ allGroups, ∀ d, 1 ≤ d → d ≤ 9 →
    ofGroupCount pv g d = g.cellList.countP (fun c => dsHas (ofCell pv c) d)

/-- One mutation of a `PossibleValues`: a `remove_possibility` call, or a
`resolve` call with its precondition (the digit is a candidate of the cell)
met.  Cell and digit bounds are the ones the Rust `CellIndex` and `Digit`
types guarantee. -/
inductive PVStep : PossibleValues → PossibleValues → Prop where
  | remove : ∀ pv c d, c < 81 → 1 ≤ d → d ≤ 9 →
      PVStep pv (removePossibility pv c d).1
  | resolve : ∀ pv c d, c < 81 → 1 ≤ d → d ≤ 9 →
      dsHas (ofCell pv c) d = true → PVStep pv (resolveCore pv c d).1

/-- States reachable from `PossibleValues::all()` by any sequence of
`resolve` and `remove_possibility` calls. -/
def PVReachable (pv : PossibleValues) : Prop :=
  Relation.ReflTransGen PVStep pvAll pv

/-- Structural well-formedness of a `PossibleValues`: the shapes the Rust
arrays have by construction, plus the `u16` digit-set bound. -/
def pvWf (pv : PossibleValues) : Prop :=
  pv.cells.length = 81 ∧ pv.counters.length = 243 ∧ ∀ c, ofCell pv c < 512

/-! ### Reachability of the engine core and its invariants (for the
Analyzer/Placer equivalence claim) -/

/-- Whether the refinement journal records a removal of digit `d` from cell
`c`. -/
def refHasPair (log : List Refinement) (c d : Nat) : Bool :=
  log.any (fun r => r.cell == c && r.removed == d)

/-- One atomic mutation of the engine core, as the Solver drives it: seeding
the Placer with a digit (from `Solver::new` or the accepted branch of
`Solver::set_digit`), the Placer handling one refinement (from
`Solver::place`), or the Analyzer handling one pending placement or
refinement with one analysis (from `Solver::refine`).  Cell and digit
bounds on seeds are the ones the Rust `CellIndex` and `Digit` types
guarantee; only non-panicking steps exist, since a Rust panic aborts the
run. -/
inductive CoreStep : CoreState → CoreState → Prop where
  | seed : ∀ s c d s', c < 81 → 1 ≤ d → d ≤ 9 →
      placerSetDigit s c d = .ok s' → CoreStep s s'
  | placer : ∀ s s' r, placerStep s = .ok (s', r) → CoreStep s s'
  | anPlace : ∀ a s s' n, anPlaceStep a s = .ok (s', n) → CoreStep s s'
  | anRefine : ∀ a s s' n, anRefineStep a s = .ok (s', n) → CoreStep s s'

/-- Core states reachable in some run of the engine. -/
def CoreReachable (s : CoreState) : Prop :=
  Relation.ReflTransGen CoreStep coreInit s

/-- The Analyzer-side invariant tying its `PossibleValues` to the
refinement journal it writes: well-formedness, counter coherence, validity
of the logged events, and — the crux — a digit is still a candidate of a
cell exactly when the journal does not record its removal from that cell. -/
def AInv (st : PossibleValues × List Refinement) : Prop :=
  pvWf st.1 ∧ coherent st.1 ∧
  (∀ r ∈ st.2, r.cell < 81 ∧ 1 ≤ r.removed ∧ r.removed ≤ 9) ∧
  (∀ c, c < 81 → ∀ d, 1 ≤ d → d ≤ 9 →
    dsHas (ofCell st.1 c) d = !(refHasPair st.2 c d))

/-- Candidate sets only shrink. -/
def pvShrinks (pv pv' : PossibleValues) : Prop :=
  ∀ c e, dsHas (ofCell pv' c) e = true → dsHas (ofCell pv c) e = true

/-- The full engine-core invariant: the Analyzer-side invariant; the
Placer-side well-formedness and coherence; validity of the placements
journal; the Placer-side characterizations — an unplaced cell's candidate
set is the full set minus the pairs of the consumed refinement prefix, and
a placed cell's candidate set is the singleton of its placed digit, whose
removal the consumed prefix does not record; the cells the CellExclusion
cursor has passed are singletons in the Analyzer's copy; and the cursor
bounds. -/
def CoreInv (s : CoreState) : Prop :=
  AInv (s.pvA, s.refJ) ∧
  pvWf s.pvP ∧ coherent s.pvP ∧
  (∀ p ∈ s.plJ, p.cell < 81 ∧ 1 ≤ p.digit ∧ p.digit ≤ 9) ∧
  (∀ c, c < 81 → (∀ p ∈ s.plJ, p.cell ≠ c) → ∀ d, 1 ≤ d → d ≤ 9 →
    dsHas (ofCell s.pvP c) d = !(refHasPair (s.refJ.take s.pCur) c d)) ∧
  (∀ p ∈ s.plJ, ofCell s.pvP p.cell = dsMask p.digit ∧
    refHasPair (s.refJ.take s.pCur) p.cell p.digit = false) ∧
  (∀ k p, k < s.curP.ce → s.plJ[k]? = some p →
    ∀ e, 1 ≤ e → e ≤ 9 → dsHas (ofCell s.pvA p.cell) e = true → e = p.digit) ∧
  (∀ a ∈ ALL_ANALYSES, s.curP.get a ≤ s.plJ.length ∧ s.curR.get a ≤ s.refJ.length) ∧
  s.pCur ≤ s.refJ.length

/-! ### Basic digit-set lemmas -/

theorem dsMask_eq_pow (d : Nat) : dsMask d = 2 ^ (d - 1) := by
  unfold dsMask; rw [Nat.shiftLeft_eq, one_mul]

theorem dsHas_eq_testBit (s d : Nat) : dsHas s d = s.testBit (d - 1) := by
  unfold dsHas
  rw [dsMask_eq_pow, Nat.and_two_pow]
  cases h : s.testBit (d - 1) <;> simp [h]

theorem dsHas_add (s d e : Nat) (hd1 : 1 ≤ d) (he1 : 1 ≤ e) :
    dsHas (dsAdd s d) e = (dsHas s e || d == e) := by
  unfold dsAdd
  rw [dsHas_eq_testBit, dsHas_eq_testBit, Nat.testBit_lor, dsMask_eq_pow]
  by_cases h : d = e
  · subst h; simp [Nat.testBit_two_pow]
  · have h2 : d - 1 ≠ e - 1 := by omega
    simp [Nat.testBit_two_pow_of_ne h2, h]

theorem dsHas_remove (s d e : Nat) (hd1 : 1 ≤ d) (hd9 : d ≤ 9) (he1 : 1 ≤ e)
    (he9 : e ≤ 9) : dsHas (dsRemove s d) e = (dsHas s e && !(d == e)) := by
  unfold dsRemove
  rw [dsHas_eq_testBit, dsHas_eq_testBit, Nat.testBit_land, Nat.testBit_xor, dsMask_eq_pow]
  have h65535 : (65535 : Nat).testBit (e - 1) = true := by
    interval_cases e <;> decide
  rw [h65535]
  by_cases h : d = e
  · subst h; simp [Nat.testBit_two_pow]
  · have h2 : d - 1 ≠ e - 1 := by omega
    simp [Nat.testBit_two_pow_of_ne h2, h]

theorem ds_ext {s t : Nat} (hs : s < 512) (ht : t < 512)
    (h : ∀ d, 1 ≤ d → d ≤ 9 → dsHas s d = dsHas t d) : s = t := by
  apply Nat.eq_of_testBit_eq
  intro i
  by_cases hi : i < 9
  · have := h (i + 1) (by omega) (by omega)
    rwa [dsHas_eq_testBit, dsHas_eq_testBit, Nat.add_sub_cancel] at this
  · have h2 : (512 : Nat) ≤ 2 ^ i := by
      calc (512 : Nat) = 2 ^ 9 := rfl
      _ ≤ 2 ^ i := Nat.pow_le_pow_right (by omega) (by omega)
    rw [Nat.testBit_eq_false_of_lt (lt_of_lt_of_le hs h2),
        Nat.testBit_eq_false_of_lt (lt_of_lt_of_le ht h2)]

theorem dsRemove_le (s d : Nat) : dsRemove s d ≤ s := Nat.and_le_left

theorem dsAdd_lt (s d : Nat) (hs : s < 512) (hd9 : d ≤ 9) : dsAdd s d < 512 := by
  unfold dsAdd
  rw [dsMask_eq_pow]
  have h1 : s < 2 ^ 9 := by omega
  have h2 : 2 ^ (d - 1) < 2 ^ 9 := Nat.pow_lt_pow_right (by omega) (by omega)
  have h3 := Nat.or_lt_two_pow h1 h2
  omega

theorem mem_dsToList {s e : Nat} : e ∈ dsToList s ↔ 1 ≤ e ∧ e ≤ 9 ∧ dsHas s e = true := by
  unfold dsToList
  simp only [List.mem_filterMap, List.mem_range]
  constructor
  · rintro ⟨i, hi, h⟩
    by_cases hb : s.testBit i
    · simp only [hb, if_true, Option.some.injEq] at h
      subst h
      refine ⟨by omega, by omega, ?_⟩
      rw [dsHas_eq_testBit, Nat.add_sub_cancel]; exact hb
    · simp [hb] at h
  · rintro ⟨h1, h9, hh⟩
    refine ⟨e - 1, by omega, ?_⟩
    rw [dsHas_eq_testBit] at hh
    simp only [hh, if_true, Option.some.injEq]
    omega

/-! ### PossibleValues basic lemmas -/

theorem pvWf_all : pvWf pvAll := by
  refine ⟨rfl, rfl, fun c => ?_⟩
  unfold ofCell pvAll
  by_cases h : c < 81
  · rw [List.getD_eq_getElem?_getD, List.getElem?_replicate]
    simp only [h, if_true, Option.getD_some]
    decide
  · rw [List.getD_eq_getElem?_getD]
    rw [List.getElem?_eq_none (by simp; omega)]
    simp

theorem removePossibility_cells_ne {pv : PossibleValues} {c d : Nat} (c' : Nat)
    (h : c' ≠ c) : ofCell (removePossibility pv c d).1 c' = ofCell pv c' := by
  unfold removePossibility
  by_cases hh : dsHas (ofCell pv c) d
  · simp only [hh, if_true]
    unfold ofCell
    simp only [List.getD_eq_getElem?_getD]
    rw [List.getElem?_set_ne (by omega)]
  · simp [hh]

theorem removePossibility_cells_self {pv : PossibleValues} {c d : Nat}
    (hc : c < pv.cells.length) (hh : dsHas (ofCell pv c) d = true) :
    ofCell (removePossibility pv c d).1 c = dsRemove (ofCell pv c) d := by
  unfold removePossibility
  simp only [hh, if_true]
  unfold ofCell
  simp only [List.getD_eq_getElem?_getD]
  rw [List.getElem?_set_self hc]
  rfl

theorem removePossibility_not_has {pv : PossibleValues} {c d : Nat}
    (hh : dsHas (ofCell pv c) d = false) : removePossibility pv c d = (pv, none) := by
  unfold removePossibility
  simp [hh]

theorem removePossibility_snd (pv : PossibleValues) (c d : Nat) :
    (removePossibility pv c d).2 = if dsHas (ofCell pv c) d then some d else none := by
  unfold removePossibility
  by_cases hh : dsHas (ofCell pv c) d <;> simp [hh]

theorem removePossibility_lengths (pv : PossibleValues) (c d : Nat) :
    (removePossibility pv c d).1.cells.length = pv.cells.length ∧
    (removePossibility pv c d).1.counters.length = pv.counters.length := by
  unfold removePossibility
  by_cases hh : dsHas (ofCell pv c) d
  · simp only [hh, if_true]
    refine ⟨List.length_set .., ?_⟩
    unfold groupsOf
    simp only [List.foldl_cons, List.foldl_nil]
    unfold decrementCounter
    simp [List.length_set]
  · simp [hh]

theorem removePossibility_cell_le (pv : PossibleValues) (c d c' : Nat) :
    ofCell (removePossibility pv c d).1 c' ≤ ofCell pv c' := by
  by_cases h : c' = c
  · subst h
    by_cases hh : dsHas (ofCell pv c') d
    · by_cases hc : c' < pv.cells.length
      · rw [removePossibility_cells_self hc hh]
        exact dsRemove_le _ _
      · unfold removePossibility
        simp only [hh, if_true]
        unfold ofCell
        simp only [List.getD_eq_getElem?_getD]
        rw [List.getElem?_set]
        simp [hc]
    · rw [removePossibility_not_has (by simpa using hh)]
  · rw [removePossibility_cells_ne c' h]

theorem removePossibility_wf {pv : PossibleValues} (c d : Nat) (h : pvWf pv) :
    pvWf (removePossibility pv c d).1 := by
  obtain ⟨h1, h2, h3⟩ := h
  obtain ⟨l1, l2⟩ := removePossibility_lengths pv c d
  exact ⟨l1.trans h1, l2.trans h2,
    fun c' => lt_of_le_of_lt (removePossibility_cell_le pv c d c') (h3 c')⟩

/-! ### Lemmas about the resolve loop -/

theorem dsHas_mask (d e : Nat) (hd1 : 1 ≤ d) (he1 : 1 ≤ e) :
    dsHas (dsMask d) e = (d == e) := by
  rw [dsHas_eq_testBit, dsMask_eq_pow]
  by_cases h : d = e
  · subst h; simp [Nat.testBit_two_pow]
  · have h2 : d - 1 ≠ e - 1 := by omega
    simp [Nat.testBit_two_pow_of_ne h2, h]

theorem resolveStep_of_ne {a d : Nat} (c : Nat) (st : PossibleValues × Nat)
    (h : a ≠ d) :
    resolveStep c d st a = ((removePossibility st.1 c a).1, dsAdd st.2 a) := by
  unfold resolveStep; simp [h]

theorem resolveStep_of_eq {a d : Nat} (c : Nat) (st : PossibleValues × Nat)
    (h : a = d) : resolveStep c d st a = st := by
  unfold resolveStep; simp [h]

theorem resolveFold_cells_ne (c d : Nat) (L : List Nat) (st : PossibleValues × Nat)
    (c' : Nat) (h : c' ≠ c) :
    ofCell (L.foldl (resolveStep c d) st).1 c' = ofCell st.1 c' := by
  induction L generalizing st with
  | nil => rfl
  | cons a L ih =>
      rw [List.foldl_cons, ih]
      by_cases ha : a = d
      · rw [resolveStep_of_eq c st ha]
      · rw [resolveStep_of_ne c st ha]
        exact removePossibility_cells_ne c' h

theorem resolveFold_lengths (c d : Nat) (L : List Nat) (st : PossibleValues × Nat) :
    (L.foldl (resolveStep c d) st).1.cells.length = st.1.cells.length ∧
    (L.foldl (resolveStep c d) st).1.counters.length = st.1.counters.length := by
  induction L generalizing st with
  | nil => exact ⟨rfl, rfl⟩
  | cons a L ih =>
      rw [List.foldl_cons]
      by_cases ha : a = d
      · rw [resolveStep_of_eq c st ha]
        exact ih st
      · rw [resolveStep_of_ne c st ha]
        obtain ⟨i1, i2⟩ := ih ((removePossibility st.1 c a).1, dsAdd st.2 a)
        exact ⟨i1.trans (removePossibility_lengths _ _ _).1,
          i2.trans (removePossibility_lengths _ _ _).2⟩

theorem dsHas_removePossibility_self (pv : PossibleValues) (c a e' : Nat)
    (hc : c < pv.cells.length) (ha1 : 1 ≤ a) (ha9 : a ≤ 9) (he1 : 1 ≤ e')
    (he9 : e' ≤ 9) :
    dsHas (ofCell (removePossibility pv c a).1 c) e' =
      (dsHas (ofCell pv c) e' && !(a == e')) := by
  by_cases hh : dsHas (ofCell pv c) a
  · rw [removePossibility_cells_self hc hh, dsHas_remove _ _ _ ha1 ha9 he1 he9]
  · rw [removePossibility_not_has (by simpa using hh)]
    by_cases he : a = e'
    · subst he
      simp only [beq_self_eq_true, Bool.not_true, Bool.and_false]
      simpa using hh
    · have hbe : (a == e') = false := by simp [he]
      simp [hbe]

theorem resolveFold_cell_has (c d : Nat) (L : List Nat)
    (hL : ∀ e ∈ L, 1 ≤ e ∧ e ≤ 9) (e' : Nat) (he1 : 1 ≤ e') (he9 : e' ≤ 9) :
    ∀ st : PossibleValues × Nat, c < st.1.cells.length →
    dsHas (ofCell (L.foldl (resolveStep c d) st).1 c) e' =
      (dsHas (ofCell st.1 c) e' && (decide (e' ∉ L) || e' == d)) := by
  induction L with
  | nil => intro st _; simp
  | cons a L ih =>
      intro st hc
      obtain ⟨ha1, ha9⟩ := hL a (List.mem_cons_self ..)
      rw [List.foldl_cons]
      by_cases ha : a = d
      · rw [resolveStep_of_eq c st ha]
        rw [ih (fun e he => hL e (List.mem_cons_of_mem _ he)) _ hc]
        subst ha
        by_cases hed : e' = a
        · subst hed
          simp
        · simp [hed]
      · rw [resolveStep_of_ne c st ha]
        rw [ih (fun e he => hL e (List.mem_cons_of_mem _ he)) _
             (by rw [(removePossibility_lengths ..).1]; exact hc)]
        rw [dsHas_removePossibility_self _ _ _ _ hc ha1 ha9 he1 he9]
        by_cases hed : e' = d
        · subst hed
          have hne : (a == e') = false := by simp; omega
          simp [hne]
        · by_cases hea : e' = a
          · subst hea
            simp [hed]
          · have hne : (a == e') = false := by simp; omega
            simp [hne, hea, hed]

theorem resolveFold_acc_has (c d : Nat) (L : List Nat)
    (hL : ∀ e ∈ L, 1 ≤ e ∧ e ≤ 9) (e' : Nat) (he1 : 1 ≤ e') (he9 : e' ≤ 9) :
    ∀ st : PossibleValues × Nat,
    dsHas (L.foldl (resolveStep c d) st).2 e' =
      (dsHas st.2 e' || (decide (e' ∈ L) && !(e' == d))) := by
  induction L with
  | nil => intro st; simp
  | cons a L ih =>
      intro st
      obtain ⟨ha1, ha9⟩ := hL a (List.mem_cons_self ..)
      rw [List.foldl_cons]
      by_cases ha : a = d
      · rw [resolveStep_of_eq c st ha]
        rw [ih (fun e he => hL e (List.mem_cons_of_mem _ he))]
        subst ha
        by_cases hea : e' = a
        · subst hea
          simp
        · simp [hea]
      · rw [resolveStep_of_ne c st ha]
        rw [ih (fun e he => hL e (List.mem_cons_of_mem _ he))]
        simp only [dsHas_add _ _ _ ha1 he1]
        by_cases hea : e' = a
        · subst hea
          have hne : (e' == d) = false := by simp; omega
          simp [hne]
        · have hne : (a == e') = false := by simp [Ne.symm hea]
          simp [hne, hea]

theorem resolveFold_acc_lt (c d : Nat) (L : List Nat)
    (hL : ∀ e ∈ L, 1 ≤ e ∧ e ≤ 9) :
    ∀ st : PossibleValues × Nat, st.2 < 512 →
      (L.foldl (resolveStep c d) st).2 < 512 := by
  induction L with
  | nil => intro st h; exact h
  | cons a L ih =>
      intro st h
      obtain ⟨ha1, ha9⟩ := hL a (List.mem_cons_self ..)
      rw [List.foldl_cons]
      refine ih (fun e he => hL e (List.mem_cons_of_mem _ he)) _ ?_
      by_cases ha : a = d
      · rw [resolveStep_of_eq c st ha]; exact h
      · rw [resolveStep_of_ne c st ha]
        exact dsAdd_lt _ _ h ha9

theorem resolveFold_cell_le (c d : Nat) (L : List Nat) :
    ∀ (st : PossibleValues × Nat) (c'' : Nat),
      ofCell (L.foldl (resolveStep c d) st).1 c'' ≤ ofCell st.1 c'' := by
  induction L with
  | nil => intro st c''; exact le_refl _
  | cons a L ih =>
      intro st c''
      rw [List.foldl_cons]
      refine le_trans (ih _ c'') ?_
      by_cases ha : a = d
      · rw [resolveStep_of_eq c st ha]
      · rw [resolveStep_of_ne c st ha]
        exact removePossibility_cell_le _ _ _ _

/-! ### Claim C9: the journal cursor contract -/

/-- C9: for every journal cursor state and handler, `handle_next` invokes
the handler on the event at the current position when one exists, advancing
the position by exactly one and returning the handler's result; when no
event exists it leaves the position unchanged and returns no value; and
`is_done()` holds exactly when the position equals the journal's current
length. -/
theorem journal_cursor_contract {α β : Type} (log : List α) (pos : Nat)
    (handler : α → β) :
    (∀ e, log[pos]? = some e →
      journalHandleNext log pos handler = (some (handler e), pos + 1)) ∧
    (log[pos]? = none → journalHandleNext log pos handler = (none, pos)) ∧
    (journalIsDone log pos = true ↔ pos = log.length) := by
  refine ⟨?_, ?_, ?_⟩
  · intro e he
    unfold journalHandleNext
    rw [he]
  · intro he
    unfold journalHandleNext
    rw [he]
  · unfold journalIsDone
    exact beq_iff_eq

theorem journal_cursor_contract_witness :
    journalHandleNext [10] 0 (fun n => n + 1) = (some 11, 1) ∧
    journalHandleNext ([] : List Nat) 0 (fun n => n + 1) = (none, 0) ∧
    journalIsDone [10] 1 = true := by
  refine ⟨(journal_cursor_contract [10] 0 _).1 10 rfl,
    (journal_cursor_contract [] 0 _).2.1 rfl,
    (journal_cursor_contract [10] 1 (fun n : Nat => n + 1)).2.2.mpr rfl⟩

/-! ### Claim C3: the resolve contract -/

theorem dsMask_lt (d : Nat) (hd9 : d ≤ 9) : dsMask d < 512 := by
  rw [dsMask_eq_pow]
  have h : 2 ^ (d - 1) ≤ 2 ^ 8 := Nat.pow_le_pow_right (by omega) (by omega)
  omega

theorem dsHas_zero (e : Nat) : dsHas 0 e = false := by
  unfold dsHas
  simp

/-- C3: for every `PossibleValues` state, cell and candidate digit of that
cell, `resolve` runs without panicking, leaves the cell's candidate set at
exactly the singleton of the digit, returns exactly the pre-call candidate
set minus the digit, and leaves the candidate set of every other cell
unchanged. -/
theorem resolve_contract (pv : PossibleValues) (c d : Nat) (hwf : pvWf pv)
    (hc : c < 81) (hd1 : 1 ≤ d) (hd9 : d ≤ 9)
    (hhas : dsHas (ofCell pv c) d = true) :
    resolveChecked pv c d = Except.ok (resolveCore pv c d) ∧
    ofCell (resolveCore pv c d).1 c = dsMask d ∧
    (resolveCore pv c d).2 = dsRemove (ofCell pv c) d ∧
    ∀ c', c' ≠ c → ofCell (resolveCore pv c d).1 c' = ofCell pv c' := by
  have h81 : c < pv.cells.length := by rw [hwf.1]; exact hc
  have hL : ∀ e ∈ dsToList (ofCell pv c), 1 ≤ e ∧ e ≤ 9 :=
    fun e he => ⟨(mem_dsToList.mp he).1, (mem_dsToList.mp he).2.1⟩
  refine ⟨?_, ?_, ?_, ?_⟩
  · unfold resolveChecked
    rw [if_pos hhas]
  · refine ds_ext ?_ (dsMask_lt d hd9) ?_
    · exact lt_of_le_of_lt (resolveFold_cell_le c d _ (pv, 0) c) (hwf.2.2 c)
    · intro e' he1 he9
      rw [resolveCore, resolveFold_cell_has c d _ hL e' he1 he9 (pv, 0) h81,
          dsHas_mask d e' hd1 he1]
      by_cases hed : e' = d
      · subst hed
        simp [hhas]
      · have h1 : (d == e') = false := by simp [Ne.symm hed]
        have h2 : (e' == d) = false := by simp [hed]
        by_cases hh : dsHas (ofCell pv c) e' = true
        · have hmem : e' ∈ dsToList (ofCell pv c) := mem_dsToList.mpr ⟨he1, he9, hh⟩
          simp [hmem, h1, h2]
        · simp only [Bool.not_eq_true] at hh
          simp [hh, h1]
  · refine ds_ext ?_ ?_ ?_
    · exact resolveFold_acc_lt c d _ hL (pv, 0) (by omega)
    · exact lt_of_le_of_lt (dsRemove_le _ _) (hwf.2.2 c)
    · intro e' he1 he9
      rw [resolveCore, resolveFold_acc_has c d _ hL e' he1 he9 (pv, 0),
          dsHas_remove _ _ _ hd1 hd9 he1 he9, dsHas_zero]
      by_cases hed : e' = d
      · subst hed
        simp
      · have h1 : (d == e') = false := by simp [Ne.symm hed]
        have h2 : (e' == d) = false := by simp [hed]
        by_cases hh : dsHas (ofCell pv c) e' = true
        · have hmem : e' ∈ dsToList (ofCell pv c) := mem_dsToList.mpr ⟨he1, he9, hh⟩
          simp [hmem, h1, h2, hh]
        · have hmem : e' ∉ dsToList (ofCell pv c) := by
            intro hcon
            exact absurd (mem_dsToList.mp hcon).2.2 hh
          simp only [Bool.not_eq_true] at hh
          simp [hmem, h1, hh]
  · intro c' hne
    exact resolveFold_cells_ne c d _ (pv, 0) c' hne

theorem resolve_contract_witness :
    resolveChecked pvAll 0 5 = Except.ok (resolveCore pvAll 0 5) ∧
    ofCell (resolveCore pvAll 0 5).1 0 = dsMask 5 ∧
    (resolveCore pvAll 0 5).2 = dsRemove (ofCell pvAll 0) 5 ∧
    ofCell (resolveCore pvAll 0 5).1 7 = ofCell pvAll 7 := by
  have h := resolve_contract pvAll 0 5 pvWf_all (by omega) (by omega) (by omega) (by decide)
  exact ⟨h.1, h.2.1, h.2.2.1, h.2.2.2 7 (by omega)⟩

/-! ### Claim C4: rejected conflicting placements -/

theorem mem_column_cellList {i c' : Nat} (hi : i < 9) :
    c' ∈ (Group.column i).cellList ↔ (c' < 81 ∧ colOf c' = i) := by
  unfold Group.cellList
  simp only [List.mem_map, List.mem_range]
  unfold colOf
  constructor
  · rintro ⟨r, hr, rfl⟩
    omega
  · rintro ⟨h81, hcol⟩
    exact ⟨c' / 9, by omega, by omega⟩

theorem mem_row_cellList {i c' : Nat} (hi : i < 9) :
    c' ∈ (Group.row i).cellList ↔ (c' < 81 ∧ rowOf c' = i) := by
  unfold Group.cellList
  simp only [List.mem_map, List.mem_range]
  unfold rowOf
  constructor
  · rintro ⟨j, hj, rfl⟩
    omega
  · rintro ⟨h81, hrow⟩
    exact ⟨c' % 9, by omega, by omega⟩

theorem mem_square_cellList {q c' : Nat} (hq : q < 9) :
    c' ∈ (Group.square q).cellList ↔ (c' < 81 ∧ squareOf c' = q) := by
  unfold Group.cellList
  simp only [List.mem_flatten, List.mem_map, List.mem_range]
  unfold squareOf rowOf colOf
  constructor
  · rintro ⟨l, ⟨a, ha, rfl⟩, hmem⟩
    simp only [List.mem_map, List.mem_range] at hmem
    obtain ⟨b, hb, rfl⟩ := hmem
    omega
  · rintro ⟨h81, hsq⟩
    refine ⟨_, ⟨(c' / 9) % 3, by omega, rfl⟩, ?_⟩
    simp only [List.mem_map, List.mem_range]
    exact ⟨(c' % 9) % 3, by omega, by omega⟩

theorem colOf_lt (c : Nat) : colOf c < 9 := Nat.mod_lt _ (by omega)

theorem rowOf_lt {c : Nat} (hc : c < 81) : rowOf c < 9 := by
  unfold rowOf; omega

theorem squareOf_lt {c : Nat} (hc : c < 81) : squareOf c < 9 := by
  unfold squareOf rowOf colOf; omega

theorem mem_conflict_scan {c c' : Nat} (hc : c < 81) :
    c' ∈ ((groupsOf c).map Group.cellList).flatten ↔ (c' < 81 ∧ sharesGroup c c') := by
  unfold groupsOf sharesGroup
  simp only [List.map_cons, List.map_nil, List.mem_flatten, List.mem_cons,
    List.not_mem_nil, or_false, exists_eq_or_imp, exists_eq_left]
  rw [mem_column_cellList (colOf_lt c), mem_row_cellList (rowOf_lt hc),
      mem_square_cellList (squareOf_lt hc)]
  tauto

/-- C4: whenever some other cell sharing a column, row, or square with the
requested cell already holds the digit, `Solver::set_digit` returns a
conflict error carrying the requested cell, the digit, and a genuinely
conflicting cell, and returns the solver state unchanged. -/
theorem setDigit_conflict_rejected (s : Solver) (c d c' : Nat)
    (hc : c < 81) (hc' : c' < 81) (hne : c' ≠ c)
    (hshare : sharesGroup c c') (hheld : gridGet s.grid c' = some d) :
    ∃ cc, getConflicting s.grid c d = some cc ∧
      solverSetDigit s c d = Except.ok (s, some ⟨d, c, cc⟩) ∧
      cc ≠ c ∧ sharesGroup c cc ∧ gridGet s.grid cc = some d := by
  have hmem : c' ∈ ((groupsOf c).map Group.cellList).flatten :=
    (mem_conflict_scan hc).mpr ⟨hc', hshare⟩
  have hpred : (fun cand => cand != c && gridGet s.grid cand == some d) c' = true := by
    simp [hne, hheld]
  have hsome : (getConflicting s.grid c d).isSome := by
    unfold getConflicting
    exact List.find?_isSome.mpr ⟨c', hmem, hpred⟩
  obtain ⟨cc, hcc⟩ := Option.isSome_iff_exists.mp hsome
  have hccF : (((groupsOf c).map Group.cellList).flatten).find?
      (fun cand => cand != c && gridGet s.grid cand == some d) = some cc := hcc
  have hccpred := List.find?_some hccF
  have hccmem := List.mem_of_find?_eq_some hccF
  simp only [Bool.and_eq_true, bne_iff_ne, beq_iff_eq] at hccpred
  refine ⟨cc, hcc, ?_, hccpred.1, ((mem_conflict_scan hc).mp hccmem).2, hccpred.2⟩
  unfold solverSetDigit
  rw [hcc]

theorem setDigit_conflict_rejected_witness :
    ∃ cc, getConflicting (mkGrid [(0, 5)]) 1 5 = some cc ∧
      solverSetDigit ⟨mkGrid [(0, 5)], coreInit⟩ 1 5 =
        Except.ok (⟨mkGrid [(0, 5)], coreInit⟩, some ⟨5, 1, cc⟩) ∧
      cc ≠ 1 ∧ sharesGroup 1 cc ∧ gridGet (mkGrid [(0, 5)]) cc = some 5 :=
  setDigit_conflict_rejected ⟨mkGrid [(0, 5)], coreInit⟩ 1 5 0
    (by omega) (by omega) (by omega) (by decide) (by decide)

/-! ### Claim C10: construction seeds the placement journal, unchecked -/

theorem dsHas_full {d : Nat} (hd1 : 1 ≤ d) (hd9 : d ≤ 9) : dsHas dsFull d = true := by
  interval_cases d <;> decide

theorem ofCell_pvAll {c : Nat} (hc : c < 81) : ofCell pvAll c = dsFull := by
  unfold ofCell pvAll
  rw [List.getD_eq_getElem?_getD, List.getElem?_replicate]
  simp [hc]

theorem gridWf_digit {g : Grid} {c d : Nat} (hwf : gridWf g)
    (h : gridGet g c = some d) : 1 ≤ d ∧ d ≤ 9 := by
  unfold gridGet at h
  rw [List.getD_eq_getElem?_getD] at h
  by_cases hc : c < g.cells.length
  · rw [List.getElem?_eq_getElem hc] at h
    have hmem : g.cells[c] ∈ g.cells := List.getElem_mem hc
    have := hwf.2 _ hmem
    simp only [Option.getD_some] at h
    rw [h] at this
    simpa using this
  · rw [List.getElem?_eq_none (by omega)] at h
    simp at h

theorem placerSetDigit_ok {core : CoreState} {c d : Nat}
    (hhas : dsHas (ofCell core.pvP c) d = true) :
    placerSetDigit core c d =
      Except.ok
        { core with
          pvP := (resolveCore core.pvP c d).1,
          plJ := core.plJ ++ [⟨c, d⟩] } := by
  unfold placerSetDigit resolveChecked
  rw [if_pos hhas]
  rfl

theorem seedFold_ok (g : Grid) (hwf : gridWf g) :
    ∀ (L : List Nat) (core : CoreState), L.Nodup →
      (∀ c ∈ L, ofCell core.pvP c = dsFull) →
      ∃ pv', (L.foldlM
          (fun core c =>
            match gridGet g c with
            | some d => placerSetDigit core c d
            | none => .ok core)
          core) =
        Except.ok
          { core with
            pvP := pv',
            plJ := core.plJ ++ L.filterMap (fun c => (gridGet g c).map (fun d => ⟨c, d⟩)) } := by
  intro L
  induction L with
  | nil =>
      intro core _ _
      refine ⟨core.pvP, ?_⟩
      simp only [List.foldlM_nil, List.filterMap_nil, List.append_nil]
      rfl
  | cons a L ih =>
      intro core hnd hfull
      rw [List.foldlM_cons]
      cases hga : gridGet g a with
      | none =>
          obtain ⟨pv', hpv'⟩ := ih core (List.Nodup.of_cons hnd)
            (fun c hcL => hfull c (List.mem_cons_of_mem _ hcL))
          refine ⟨pv', ?_⟩
          simp only [hga, List.filterMap_cons, Option.map_none']
          exact hpv'
      | some d =>
          obtain ⟨hd1, hd9⟩ := gridWf_digit hwf hga
          have hhas : dsHas (ofCell core.pvP a) d = true := by
            rw [hfull a (List.mem_cons_self ..)]
            exact dsHas_full hd1 hd9
          have hfull1 : ∀ c ∈ L,
              ofCell ({ core with
                pvP := (resolveCore core.pvP a d).1,
                plJ := core.plJ ++ [⟨a, d⟩] } : CoreState).pvP c = dsFull := by
            intro c hcL
            have hca : c ≠ a := fun hcon => (List.nodup_cons.mp hnd).1 (hcon ▸ hcL)
            show ofCell (resolveCore core.pvP a d).1 c = dsFull
            rw [resolveCore, resolveFold_cells_ne a d _ (core.pvP, 0) c hca]
            exact hfull c (List.mem_cons_of_mem _ hcL)
          obtain ⟨pv', hpv'⟩ := ih _ (List.Nodup.of_cons hnd) hfull1
          refine ⟨pv', ?_⟩
          simp only [hga, placerSetDigit_ok hhas, List.filterMap_cons, Option.map_some']
          rw [show (Except.ok ({ core with
                pvP := (resolveCore core.pvP a d).1,
                plJ := core.plJ ++ [⟨a, d⟩] } : CoreState) >>= fun core =>
              List.foldlM (fun core c =>
                match gridGet g c with
                | some d => placerSetDigit core c d
                | none => Except.ok core) core L) =
            List.foldlM (fun core c =>
                match gridGet g c with
                | some d => placerSetDigit core c d
                | none => Except.ok core)
              ({ core with
                pvP := (resolveCore core.pvP a d).1,
                plJ := core.plJ ++ [⟨a, d⟩] } : CoreState) L from rfl]
          rw [hpv']
          simp

/-- C10: for every structurally well-formed input grid, including one that
violates the rules of Sudoku, `Solver::new` returns normally (no conflict
check is performed on the givens), keeps the input grid, and the placement
journal afterwards holds exactly one `Placement` per non-empty cell of the
input, carrying that cell's digit, in ascending cell-index order. -/
theorem solverNew_seeds_placements (g : Grid) (hwf : gridWf g) :
    ∃ pv', solverNew g = Except.ok
      { grid := g,
        core :=
          { coreInit with
            pvP := pv',
            plJ := (List.range 81).filterMap
              (fun c => (gridGet g c).map (fun d => ⟨c, d⟩)) } } := by
  obtain ⟨pv', hpv'⟩ := seedFold_ok g hwf (List.range 81) coreInit
    (List.nodup_range 81)
    (fun c hc => ofCell_pvAll (List.mem_range.mp hc))
  refine ⟨pv', ?_⟩
  unfold solverNew
  rw [hpv']
  rfl

theorem solverNew_seeds_placements_witness :
    ∃ pv', solverNew dupGrid = Except.ok
      { grid := dupGrid,
        core :=
          { coreInit with
            pvP := pv',
            plJ := (List.range 81).filterMap
              (fun c => (gridGet dupGrid c).map (fun d => ⟨c, d⟩)) } } :=
  solverNew_seeds_placements dupGrid ⟨by decide, by decide⟩

/-! ### The refinement journal only grows by appends -/

/-- `l2` extends `l1` by appended entries. -/
def logLe (l1 l2 : List Refinement) : Prop := ∃ tl, l2 = l1 ++ tl

theorem logLe_refl (l : List Refinement) : logLe l l := ⟨[], (List.append_nil l).symm⟩

theorem logLe_trans {l1 l2 l3 : List Refinement} (h1 : logLe l1 l2)
    (h2 : logLe l2 l3) : logLe l1 l3 := by
  obtain ⟨t1, rfl⟩ := h1
  obtain ⟨t2, rfl⟩ := h2
  exact ⟨t1 ++ t2, List.append_assoc ..⟩

theorem logLe_append (l tl : List Refinement) : logLe l (l ++ tl) := ⟨tl, rfl⟩

theorem foldl_logLe {β : Type} {f : PossibleValues × List Refinement → β →
      PossibleValues × List Refinement}
    (h : ∀ st x, logLe st.2 (f st x).2) :
    ∀ (L : List β) (st : PossibleValues × List Refinement),
      logLe st.2 (L.foldl f st).2 := by
  intro L
  induction L with
  | nil => intro st; exact logLe_refl _
  | cons a L ih =>
      intro st
      rw [List.foldl_cons]
      exact logLe_trans (h st a) (ih (f st a))

theorem foldlM_logLe {β : Type} {f : PossibleValues × List Refinement → β →
      Except PanicKind (PossibleValues × List Refinement)}
    (h : ∀ st x st', f st x = .ok st' → logLe st.2 st'.2) :
    ∀ (L : List β) (st st' : PossibleValues × List Refinement),
      L.foldlM f st = .ok st' → logLe st.2 st'.2 := by
  intro L
  induction L with
  | nil =>
      intro st st' hfold
      rw [List.foldlM_nil] at hfold
      cases hfold
      exact logLe_refl _
  | cons a L ih =>
      intro st st' hfold
      rw [List.foldlM_cons] at hfold
      cases hstep : f st a with
      | error e => rw [hstep] at hfold; cases hfold
      | ok st1 =>
          rw [hstep] at hfold
          exact logLe_trans (h st a st1 hstep) (ih st1 st' hfold)

theorem removeLogged_log (st : PossibleValues × List Refinement) (c d : Nat)
    (reason : RefinementReason) : logLe st.2 (removeLogged st c d reason).2 := by
  unfold removeLogged
  cases h : removePossibility st.1 c d with
  | mk pv o =>
      cases o
      · exact logLe_refl _
      · exact logLe_append _ _

theorem cellExclusionOnPlacement_log {st st' : PossibleValues × List Refinement}
    {p : Placement} (h : cellExclusionOnPlacement st p = .ok st') :
    logLe st.2 st'.2 := by
  unfold cellExclusionOnPlacement at h
  unfold resolveChecked at h
  by_cases hh : dsHas (ofCell st.1 p.cell) p.digit
  · rw [if_pos hh] at h
    cases h
    exact logLe_append _ _
  · rw [if_neg hh] at h
    cases h

theorem groupExclusionOnPlacement_log (st : PossibleValues × List Refinement)
    (p : Placement) : logLe st.2 (groupExclusionOnPlacement st p).2 := by
  unfold groupExclusionOnPlacement
  refine foldl_logLe (fun st g => ?_) _ _
  refine foldl_logLe (fun st other => ?_) _ _
  by_cases ho : other = p.cell
  · rw [if_pos ho]; exact logLe_refl _
  · rw [if_neg ho]; exact removeLogged_log ..

theorem groupInclusionOnRefinement_log {st st' : PossibleValues × List Refinement}
    {r : Refinement} (h : groupInclusionOnRefinement st r = .ok st') :
    logLe st.2 st'.2 := by
  unfold groupInclusionOnRefinement at h
  refine foldlM_logLe (fun st g st' hstep => ?_) _ _ _ h
  by_cases hcount : ofGroupCount st.1 g r.removed ≠ 1
  · rw [if_pos hcount] at hstep
    cases hstep
    exact logLe_refl _
  · rw [if_neg hcount] at hstep
    cases hfind : g.cellList.find? (fun cand => dsHas (ofCell st.1 cand) r.removed) with
    | none => rw [hfind] at hstep; cases hstep
    | some cand =>
        rw [hfind] at hstep
        dsimp only at hstep
        unfold resolveChecked at hstep
        by_cases hh : dsHas (ofCell st.1 cand) r.removed
        · rw [if_pos hh] at hstep
          cases hstep
          exact logLe_append _ _
        · rw [if_neg hh] at hstep
          cases hstep

theorem overlapClear_log (st : PossibleValues × List Refinement)
    (includer og : Group) (d : Nat) : logLe st.2 (overlapClear st includer og d).2 := by
  unfold overlapClear
  refine foldl_logLe (fun st oc => ?_) _ _
  by_cases hin : includer.containsCell oc
  · simp only [hin, if_true]; exact logLe_refl _
  · simp only [hin, Bool.false_eq_true, if_false]
    by_cases hh : dsHas (ofCell st.1 oc) d
    · simp only [hh, if_true]; exact logLe_append _ _
    · simp only [hh, Bool.false_eq_true, if_false]; exact logLe_refl _

theorem overlapProcessSet_log {st st' : PossibleValues × List Refinement}
    {includer : Group} {d s : Nat}
    (h : overlapProcessSet st includer d s = .ok st') : logLe st.2 st'.2 := by
  unfold overlapProcessSet at h
  by_cases hsz : gsSize s > 1
  · rw [if_pos hsz] at h
    cases h
    exact logLe_refl _
  · rw [if_neg hsz] at h
    cases hfst : gsFirst s with
    | none => rw [hfst] at h; cases h
    | some og =>
        rw [hfst] at h
        cases h
        exact overlapClear_log ..

theorem groupOverlapIncluderStep_log {st st' : PossibleValues × List Refinement}
    {d : Nat} {includer : Group}
    (h : groupOverlapIncluderStep st d includer = .ok st') : logLe st.2 st'.2 := by
  unfold groupOverlapIncluderStep at h
  by_cases hcnt : ofGroupCount st.1 includer d > SQUARE_DIMENSION
  · rw [if_pos hcnt] at h
    cases h
    exact logLe_refl _
  · rw [if_neg hcnt] at h
    by_cases hab : (overlapSets st.1 includer d).1 == 0
    · rw [if_pos hab] at h
      cases h
      exact logLe_refl _
    · rw [if_neg hab] at h
      cases h1 : overlapProcessSet st includer d (overlapSets st.1 includer d).1 with
      | error e => rw [h1] at h; cases h
      | ok st1 =>
          rw [h1] at h
          exact logLe_trans (overlapProcessSet_log h1)
            (overlapProcessSet_log h)

theorem groupOverlapOnRefinement_log {st st' : PossibleValues × List Refinement}
    {r : Refinement} (h : groupOverlapOnRefinement st r = .ok st') :
    logLe st.2 st'.2 := by
  unfold groupOverlapOnRefinement at h
  exact foldlM_logLe (fun st g st' hstep => groupOverlapIncluderStep_log hstep) _ _ _ h

theorem gsiRemoveLoop_log (st : PossibleValues × List Refinement)
    (cellsSubset digitsSubset : Nat) (g : Group) :
    logLe st.2 (gsiRemoveLoop st cellsSubset digitsSubset g).2 := by
  unfold gsiRemoveLoop
  refine foldl_logLe (fun st cand => ?_) _ _
  by_cases hcs : csHas cellsSubset cand
  · simp only [hcs, if_true]; exact logLe_refl _
  · simp only [hcs, Bool.false_eq_true, if_false]
    refine foldl_logLe (fun st dg => ?_) _ _
    by_cases hh : dsHas (ofCell st.1 cand) dg
    · simp only [hh, if_true]; exact logLe_append _ _
    · simp only [hh, Bool.false_eq_true, if_false]; exact logLe_refl _

theorem analyzeNextCell_log (st : PossibleValues × List Refinement) (cell : Nat) :
    logLe st.2 (analyzeNextCell st cell).2 := by
  unfold analyzeNextCell
  dsimp only
  split
  · exact logLe_refl _
  · split
    · exact logLe_refl _
    · refine foldl_logLe (fun st g => ?_) _ _
      dsimp only
      split
      · exact logLe_refl _
      · exact gsiRemoveLoop_log ..

theorem groupSubsetInclusionOnRefinement_log (st : PossibleValues × List Refinement)
    (r : Refinement) : logLe st.2 (groupSubsetInclusionOnRefinement st r).2 := by
  unfold groupSubsetInclusionOnRefinement
  refine logLe_trans (analyzeNextCell_log st r.cell) ?_
  refine foldl_logLe (fun st g => ?_) _ _
  refine foldl_logLe (fun st cell => ?_) _ _
  dsimp only
  split
  · exact analyzeNextCell_log ..
  · exact logLe_refl _

theorem placementHandler_log {a : Analysis} {st st' : PossibleValues × List Refinement}
    {p : Placement} (h : placementHandler a st p = .ok st') : logLe st.2 st'.2 := by
  cases a <;> unfold placementHandler at h
  case cellExclusion => exact cellExclusionOnPlacement_log h
  case groupExclusion =>
    cases h
    exact groupExclusionOnPlacement_log ..
  all_goals (cases h; exact logLe_refl _)

theorem refinementHandler_log {a : Analysis} {st st' : PossibleValues × List Refinement}
    {r : Refinement} (h : refinementHandler a st r = .ok st') : logLe st.2 st'.2 := by
  cases a <;> unfold refinementHandler at h
  case groupInclusion => exact groupInclusionOnRefinement_log h
  case groupOverlap => exact groupOverlapOnRefinement_log h
  case groupSubsetInclusion =>
    cases h
    exact groupSubsetInclusionOnRefinement_log ..
  all_goals (cases h; exact logLe_refl _)

/-! ### Claim C8: the analyze scheduling contract -/

theorem except_bind_ok {ε α β : Type} (x : Except ε α) (f : α → Except ε β) (b : β) :
    (x >>= f = Except.ok b) ↔ ∃ a, x = Except.ok a ∧ f a = Except.ok b := by
  cases x with
  | error e => simp [Bind.bind, Except.bind]
  | ok a => simp [Bind.bind, Except.bind]

theorem analyzeGo_eq_specGo : ∀ (L : List Analysis) (s : CoreState),
    analyzeGo L s =
      analyzeSpecGo (L.flatMap (fun a => [(a, .placements), (a, .refinements)])) s := by
  intro L
  induction L with
  | nil => intro s; rfl
  | cons a rest ih =>
      intro s
      rw [List.flatMap_cons]
      show (do
          let (s1, r1) ← anPlaceStep a s
          if r1 ≠ 0 then Except.ok (s1, r1)
          else do
            let (s2, r2) ← anRefineStep a s1
            if r2 ≠ 0 then Except.ok (s2, r2) else analyzeGo rest s2) =
        analyzeSpecGo ((a, .placements) :: (a, .refinements) ::
          rest.flatMap (fun a => [(a, .placements), (a, .refinements)])) s
      cases h1 : anPlaceStep a s with
      | error e =>
          show Except.error e = _
          unfold analyzeSpecGo
          rw [h1]
          rfl
      | ok p =>
          obtain ⟨s1, r1⟩ := p
          unfold analyzeSpecGo
          rw [h1]
          show (if r1 ≠ 0 then Except.ok (s1, r1)
              else do
                let (s2, r2) ← anRefineStep a s1
                if r2 ≠ 0 then Except.ok (s2, r2) else analyzeGo rest s2) =
            (if r1 ≥ 1 then Except.ok (s1, r1)
              else analyzeSpecGo ((a, .refinements) ::
                rest.flatMap (fun a => [(a, .placements), (a, .refinements)])) s1)
          by_cases hr1 : r1 = 0
          · subst hr1
            simp only [ne_eq, not_true_eq_false, if_false, ge_iff_le,
              Nat.not_succ_le_zero, if_neg (by omega : ¬(1 : Nat) ≤ 0)]
            cases h2 : anRefineStep a s1 with
            | error e =>
                show Except.error e = _
                unfold analyzeSpecGo
                rw [h2]
                rfl
            | ok q =>
                obtain ⟨s2, r2⟩ := q
                unfold analyzeSpecGo
                rw [h2]
                show (if r2 ≠ 0 then Except.ok (s2, r2) else analyzeGo rest s2) =
                  (if r2 ≥ 1 then Except.ok (s2, r2)
                    else analyzeSpecGo
                      (rest.flatMap (fun a => [(a, .placements), (a, .refinements)])) s2)
                by_cases hr2 : r2 = 0
                · subst hr2
                  rw [if_neg (by omega), if_neg (by omega)]
                  exact ih s2
                · rw [if_pos hr2, if_pos (by omega)]
          · rw [if_pos hr1, if_pos (by omega)]

theorem anPlaceStep_shape {a : Analysis} {s s' : CoreState} {n : Nat}
    (h : anPlaceStep a s = .ok (s', n)) :
    s'.refJ.length = s.refJ.length + n ∧
    (s'.curP = s.curP ∨ s'.curP = s.curP.bump a) := by
  unfold anPlaceStep at h
  cases hev : s.plJ[s.curP.get a]? with
  | none =>
      rw [hev] at h
      cases h
      exact ⟨by omega, Or.inl rfl⟩
  | some p =>
      rw [hev] at h
      rw [except_bind_ok] at h
      obtain ⟨⟨pv, log⟩, hhandler, hok⟩ := h
      cases hok
      obtain ⟨tl, htl⟩ := placementHandler_log hhandler
      subst htl
      refine ⟨?_, Or.inr rfl⟩
      simp [List.length_append]

theorem anRefineStep_shape {a : Analysis} {s s' : CoreState} {n : Nat}
    (h : anRefineStep a s = .ok (s', n)) :
    s'.refJ.length = s.refJ.length + n ∧
    (s'.curR = s.curR ∨ s'.curR = s.curR.bump a) := by
  unfold anRefineStep at h
  cases hev : s.refJ[s.curR.get a]? with
  | none =>
      rw [hev] at h
      cases h
      exact ⟨by omega, Or.inl rfl⟩
  | some r =>
      rw [hev] at h
      rw [except_bind_ok] at h
      obtain ⟨⟨pv, log⟩, hhandler, hok⟩ := h
      cases hok
      obtain ⟨tl, htl⟩ := refinementHandler_log hhandler
      subst htl
      refine ⟨?_, Or.inr rfl⟩
      simp [List.length_append]

/-- C8: `Analyzer::analyze` behaves exactly as the documented schedule: the
ten analysis/stream combinations are visited in the fixed cheapest-first
order, placements before refinements per analysis, each combination
processing at most one pending event (each step either leaves its cursor or
advances it by one), and the call returns the refinement count of the first
combination appending at least one refinement (0 when every combination is
caught up or appends nothing). -/
theorem analyze_scheduling_contract :
    (∀ s, analyze s = analyzeSpec s) ∧
    (∀ (a : Analysis) (s s' : CoreState) (n : Nat), anPlaceStep a s = .ok (s', n) →
      s'.refJ.length = s.refJ.length + n ∧
      (s'.curP = s.curP ∨ s'.curP = s.curP.bump a)) ∧
    (∀ (a : Analysis) (s s' : CoreState) (n : Nat), anRefineStep a s = .ok (s', n) →
      s'.refJ.length = s.refJ.length + n ∧
      (s'.curR = s.curR ∨ s'.curR = s.curR.bump a)) := by
  refine ⟨fun s => ?_, fun a s s' n h => anPlaceStep_shape h,
    fun a s s' n h => anRefineStep_shape h⟩
  unfold analyze analyzeSpec
  have h := analyzeGo_eq_specGo ALL_ANALYSES s
  rw [h]
  rfl

theorem analyze_scheduling_contract_witness :
    analyze coreInit = analyzeSpec coreInit ∧
    (coreInit.refJ.length = coreInit.refJ.length + 0 ∧
      (coreInit.curP = coreInit.curP ∨ coreInit.curP = coreInit.curP.bump .cellExclusion)) :=
  ⟨analyze_scheduling_contract.1 coreInit,
   analyze_scheduling_contract.2.1 .cellExclusion coreInit coreInit 0 rfl⟩

/-! ### Claim C7: GroupOverlap processing -/

theorem gsSize_pos_of_ne_zero {s : Nat} (hlt : s < 2 ^ 27) (hne : s ≠ 0) :
    1 ≤ gsSize s := by
  by_contra hcon
  have hz : gsSize s = 0 := by omega
  unfold gsSize at hz
  rw [List.countP_eq_zero] at hz
  refine hne (Nat.eq_of_testBit_eq fun i => ?_)
  rw [Nat.zero_testBit]
  by_cases hi : i < 27
  · have := hz i (List.mem_range.mpr hi)
    simpa using this
  · exact Nat.testBit_eq_false_of_lt
      (lt_of_lt_of_le hlt (Nat.pow_le_pow_right (by omega) (by omega)))

theorem dsHas_imp_lt {pv : PossibleValues} {c d : Nat}
    (hlen : pv.cells.length = 81) (h : dsHas (ofCell pv c) d = true) : c < 81 := by
  by_contra hcon
  rw [show ofCell pv c = 0 from ?_, dsHas_zero] at h
  · cases h
  · unfold ofCell
    rw [List.getD_eq_getElem?_getD, List.getElem?_eq_none (by omega)]
    rfl

theorem otherGroups_index_lt (g : Group) {c : Nat} (hc : c < 81) :
    (g.otherGroups c).1.index < 27 ∧ (g.otherGroups c).2.index < 27 := by
  cases g <;>
    simp only [Group.otherGroups, Group.index] <;>
    exact ⟨by have := rowOf_lt hc; have := colOf_lt c; have := squareOf_lt hc; omega,
      by have := rowOf_lt hc; have := colOf_lt c; have := squareOf_lt hc; omega⟩

theorem gsAdd_lt {s : Nat} {g : Group} (hs : s < 2 ^ 27) (hg : g.index < 27) :
    gsAdd s g < 2 ^ 27 := by
  unfold gsAdd
  have h2 : (1 <<< g.index) < 2 ^ 27 := by
    rw [Nat.shiftLeft_eq, one_mul]
    exact Nat.pow_lt_pow_right (by omega) hg
  exact Nat.or_lt_two_pow hs h2

theorem gsAdd_ne_zero (s : Nat) (g : Group) : gsAdd s g ≠ 0 := by
  unfold gsAdd
  intro h
  have h2 : (s ||| 1 <<< g.index).testBit g.index = true := by
    rw [Nat.testBit_lor, Nat.shiftLeft_eq, one_mul, Nat.testBit_two_pow]
    simp
  rw [h, Nat.zero_testBit] at h2
  cases h2

theorem overlapSets_inv (pv : PossibleValues) (includer : Group) (d : Nat)
    (hlen : pv.cells.length = 81) :
    (overlapSets pv includer d).1 < 2 ^ 27 ∧ (overlapSets pv includer d).2 < 2 ^ 27 ∧
    ((overlapSets pv includer d).1 = 0 ↔ (overlapSets pv includer d).2 = 0) := by
  unfold overlapSets
  have hfold : ∀ (L : List Nat) (ab : Nat × Nat),
      ab.1 < 2 ^ 27 → ab.2 < 2 ^ 27 → (ab.1 = 0 ↔ ab.2 = 0) →
      (L.foldl (fun ab cand =>
        if dsHas (ofCell pv cand) d then
          (gsAdd ab.1 (includer.otherGroups cand).1, gsAdd ab.2 (includer.otherGroups cand).2)
        else ab) ab).1 < 2 ^ 27 ∧
      (L.foldl (fun ab cand =>
        if dsHas (ofCell pv cand) d then
          (gsAdd ab.1 (includer.otherGroups cand).1, gsAdd ab.2 (includer.otherGroups cand).2)
        else ab) ab).2 < 2 ^ 27 ∧
      ((L.foldl (fun ab cand =>
        if dsHas (ofCell pv cand) d then
          (gsAdd ab.1 (includer.otherGroups cand).1, gsAdd ab.2 (includer.otherGroups cand).2)
        else ab) ab).1 = 0 ↔
       (L.foldl (fun ab cand =>
        if dsHas (ofCell pv cand) d then
          (gsAdd ab.1 (includer.otherGroups cand).1, gsAdd ab.2 (includer.otherGroups cand).2)
        else ab) ab).2 = 0) := by
    intro L
    induction L with
    | nil => intro ab h1 h2 h3; exact ⟨h1, h2, h3⟩
    | cons a L ih =>
        intro ab h1 h2 h3
        rw [List.foldl_cons]
        by_cases hh : dsHas (ofCell pv a) d
        · have hc81 := dsHas_imp_lt hlen hh
          obtain ⟨hi1, hi2⟩ := otherGroups_index_lt includer hc81
          rw [if_pos hh]
          exact ih _ (gsAdd_lt h1 hi1) (gsAdd_lt h2 hi2)
            (by simp [gsAdd_ne_zero ab.1 (includer.otherGroups a).1,
              gsAdd_ne_zero ab.2 (includer.otherGroups a).2])
        · rw [if_neg (by simpa using hh)]
          exact ih ab h1 h2 h3
  exact hfold includer.cellList (0, 0) (Nat.two_pow_pos 27) (Nat.two_pow_pos 27)
    (by simp)

theorem overlapClear_len (st : PossibleValues × List Refinement)
    (includer og : Group) (d : Nat) :
    (overlapClear st includer og d).1.cells.length = st.1.cells.length := by
  unfold overlapClear
  have hfold : ∀ (L : List Nat) (st : PossibleValues × List Refinement),
      ((L.foldl (fun st oc =>
        if includer.containsCell oc then st
        else if dsHas (ofCell st.1 oc) d then
          ((removePossibility st.1 oc d).1, st.2 ++ [⟨oc, d, .groupOverlap includer og⟩])
        else st) st).1.cells.length = st.1.cells.length) := by
    intro L
    induction L with
    | nil => intro st; rfl
    | cons a L ih =>
        intro st
        rw [List.foldl_cons]
        rw [ih]
        by_cases h1 : includer.containsCell a
        · rw [if_pos h1]
        · rw [if_neg (by simpa using h1)]
          by_cases h2 : dsHas (ofCell st.1 a) d
          · rw [if_pos h2]
            exact (removePossibility_lengths ..).1
          · rw [if_neg (by simpa using h2)]
  exact hfold og.cellList st

theorem overlapProcessSet_len {st st' : PossibleValues × List Refinement}
    {includer : Group} {d s : Nat}
    (h : overlapProcessSet st includer d s = .ok st') :
    st'.1.cells.length = st.1.cells.length := by
  unfold overlapProcessSet at h
  by_cases hsz : gsSize s > 1
  · rw [if_pos hsz] at h
    cases h
    rfl
  · rw [if_neg hsz] at h
    cases hfst : gsFirst s with
    | none => rw [hfst] at h; cases h
    | some og =>
        rw [hfst] at h
        cases h
        exact overlapClear_len ..

theorem groupOverlapIncluderStep_len {st st' : PossibleValues × List Refinement}
    {d : Nat} {includer : Group}
    (h : groupOverlapIncluderStep st d includer = .ok st') :
    st'.1.cells.length = st.1.cells.length := by
  unfold groupOverlapIncluderStep at h
  by_cases hcnt : ofGroupCount st.1 includer d > SQUARE_DIMENSION
  · rw [if_pos hcnt] at h
    cases h
    rfl
  · rw [if_neg hcnt] at h
    by_cases hab : (overlapSets st.1 includer d).1 == 0
    · rw [if_pos hab] at h
      cases h
      rfl
    · rw [if_neg hab] at h
      rw [except_bind_ok] at h
      obtain ⟨st1, h1, h2⟩ := h
      rw [overlapProcessSet_len h2, overlapProcessSet_len h1]

theorem overlapProcessSet_eq_spec (st : PossibleValues × List Refinement)
    (includer : Group) (d : Nat) {s : Nat} (hlt : s < 2 ^ 27) (hne : s ≠ 0) :
    overlapProcessSet st includer d s = overlapSpecProcessSet st includer d s := by
  unfold overlapProcessSet overlapSpecProcessSet
  by_cases h1 : gsSize s > 1
  · rw [if_pos h1, if_neg (by omega)]
  · have hpos := gsSize_pos_of_ne_zero hlt hne
    rw [if_neg h1, if_pos (by omega)]

theorem groupOverlapIncluder_eq_spec (st : PossibleValues × List Refinement)
    (d : Nat) (includer : Group) (hlen : st.1.cells.length = 81) :
    groupOverlapIncluderStep st d includer = groupOverlapSpecIncluder st d includer := by
  unfold groupOverlapIncluderStep groupOverlapSpecIncluder
  rw [show SQUARE_DIMENSION = 3 from rfl]
  by_cases hcnt : ofGroupCount st.1 includer d > 3
  · rw [if_pos hcnt, if_pos hcnt]
  · rw [if_neg hcnt, if_neg hcnt]
    dsimp only
    by_cases hab : (overlapSets st.1 includer d).1 == 0
    · rw [if_pos hab, if_pos hab]
    · rw [if_neg hab, if_neg hab]
      obtain ⟨hlt1, hlt2, hiff⟩ := overlapSets_inv st.1 includer d hlen
      have hne1 : (overlapSets st.1 includer d).1 ≠ 0 := by simpa using hab
      have hne2 : (overlapSets st.1 includer d).2 ≠ 0 := fun h => hne1 (hiff.mpr h)
      rw [overlapProcessSet_eq_spec st includer d hlt1 hne1]
      exact congrArg (Bind.bind _)
        (funext fun st1 => overlapProcessSet_eq_spec st1 includer d hlt2 hne2)

theorem foldlM_congr_inv {σ α : Type} {P : σ → Prop}
    {f g : σ → α → Except PanicKind σ}
    (hpres : ∀ s x s', P s → f s x = .ok s' → P s')
    (heq : ∀ s x, P s → f s x = g s x) :
    ∀ (L : List α) (s : σ), P s → L.foldlM f s = L.foldlM g s := by
  intro L
  induction L with
  | nil => intro s _; rfl
  | cons a L ih =>
      intro s hP
      rw [List.foldlM_cons, List.foldlM_cons, ← heq s a hP]
      cases h : f s a with
      | error e => rfl
      | ok s1 =>
          show List.foldlM f s1 L = List.foldlM g s1 L
          exact ih s1 (hpres s a s1 hP h)

/-- C7 (amended): `GroupOverlap` processing of a refinement is exactly: for
each of the cell's three covering groups, do nothing when the group's
counter for the removed digit exceeds 3 or when no cell of the group holds
the digit; otherwise collect, per other-group-type, the set of distinct
other groups of the cells still holding the digit, and clear the digit from
the single group of each group-set whose size is exactly one (both when
both sets are singletons), each removal logged with reason
`GroupOverlap(current group, overlapping group)`. -/
theorem groupOverlap_contract (st : PossibleValues × List Refinement)
    (r : Refinement) (hlen : st.1.cells.length = 81) :
    groupOverlapOnRefinement st r = groupOverlapSpec st r := by
  unfold groupOverlapOnRefinement groupOverlapSpec
  exact foldlM_congr_inv
    (fun st g st' hP h => (groupOverlapIncluderStep_len h).trans hP)
    (fun st g hP => groupOverlapIncluder_eq_spec st r.removed g hP)
    (groupsOf r.cell) st hlen

set_option maxRecDepth 10000 in
theorem groupOverlap_contract_witness :
    groupOverlapOnRefinement (c7PV, []) c7Refinement = groupOverlapSpec (c7PV, []) c7Refinement :=
  groupOverlap_contract (c7PV, []) c7Refinement (by decide)

set_option maxRecDepth 40000 in
/-- C7 counterexample: on `c7PV`, processing the refinement (cell 72,
digit 7) finds column 0 with counter 1 (not above 3) and BOTH
other-group-type sets of size exactly 1, and still performs removals —
clearing both row 0 and square 0 — whereas the claim states removals happen
exactly when exactly one of the two group-sets has size 1. -/
theorem groupOverlap_both_singleton_counterexample :
    c7Obs = some (1, 1, 1, true, true) := by
  decide

/-! ### Claim C5: a solver run that empties a size-1 candidate set -/

set_option maxRecDepth 100000 in
set_option maxHeartbeats 1000000 in
/-- C5 (failing run): `Solver::new` accepts `dupGrid` — digit 5 given in
both cell 0 and cell 1 of row 0 — without any check, and `solve()` then
panics: the Analyzer's `GroupExclusion` appends the refinement (cell 1,
digit 5), the Placer replays it on its local copy where cell 1's candidate
set is already the singleton {5}, the removal empties the set, and the
`unwrap` extracting the remaining digit in `handle_next_refinement` fails —
contradicting the claim that a size-1 candidate set is never emptied and
the extraction cannot fail. -/
theorem placer_unwrap_panics_on_duplicate_givens :
    runPanic (do
      let s ← solverNew dupGrid
      solveGo 2000 s) = some PanicKind.unwrapFailed := by
  decide

/-! ### Claim C6: manually placing a deductively-eliminated digit -/

set_option maxRecDepth 100000 in
set_option maxHeartbeats 8000000 in
/-- C6 counterexample: at the end of the concrete run `c6Run` (a reachable
interactive session on `ppGrid`), cell 5 (row 0, column 5) is empty in the
grid and no cell sharing a column, row, or square with it holds digit 7, yet
7 has been eliminated from its candidates in the Placer's copy by the
`GroupOverlap` deduction, and `Solver::set_digit(cell 5, 7)` ABORTS with the
`resolve` assertion failure instead of accepting the placement and
returning success as the claim states. -/
theorem setDigit_eliminated_digit_aborts :
    c6Obs = some (none, none, false, some PanicKind.resolveAssert) := by
  decide

/-- C6 (amended): when no cell sharing a column, row, or square with the
requested cell holds the digit in the Grid, the conflict check passes, and
`Solver::set_digit` returns success exactly when the digit is still a
candidate of the cell in the Placer's local copy; when prior deductions
have eliminated it there, the call aborts with the `resolve` assertion
failure instead of returning. -/
theorem setDigit_no_conflict_contract (s : Solver) (c d : Nat)
    (hnoconf : getConflicting s.grid c d = none) :
    (dsHas (ofCell s.core.pvP c) d = true →
      solverSetDigit s c d = Except.ok
        (⟨(gridSet s.grid c (some d)).1,
          { s.core with
            pvP := (resolveCore s.core.pvP c d).1,
            plJ := s.core.plJ ++ [⟨c, d⟩] }⟩, none)) ∧
    (dsHas (ofCell s.core.pvP c) d = false →
      solverSetDigit s c d = Except.error PanicKind.resolveAssert) := by
  constructor
  · intro hhas
    unfold solverSetDigit
    rw [hnoconf, placerSetDigit_ok hhas]
    rfl
  · intro hhas
    unfold solverSetDigit
    rw [hnoconf]
    unfold placerSetDigit resolveChecked
    rw [if_neg (by simp [hhas])]
    rfl

theorem setDigit_no_conflict_contract_witness :
    solverSetDigit ⟨gridEmpty, coreInit⟩ 0 5 = Except.ok
      (⟨(gridSet gridEmpty 0 (some 5)).1,
        { coreInit with
          pvP := (resolveCore coreInit.pvP 0 5).1,
          plJ := coreInit.plJ ++ [⟨0, 5⟩] }⟩, none) ∧
    solverSetDigit ⟨gridEmpty, { coreInit with pvP := (removePossibility pvAll 0 5).1 }⟩ 0 5 =
      Except.error PanicKind.resolveAssert := by
  refine ⟨(setDigit_no_conflict_contract ⟨gridEmpty, coreInit⟩ 0 5 (by decide)).1 (by decide),
    (setDigit_no_conflict_contract
      ⟨gridEmpty, { coreInit with pvP := (removePossibility pvAll 0 5).1 }⟩ 0 5
      (by decide)).2 (by decide)⟩

/-! ### Claim C1: the group-counter invariant -/

theorem countP_flip {α : Type} (p q : α → Bool) :
    ∀ (L : List α), L.Nodup → ∀ a ∈ L, (∀ x ∈ L, x ≠ a → q x = p x) →
      p a = true → q a = false → L.countP q + 1 = L.countP p := by
  intro L
  induction L with
  | nil => intro _ a ha _ _ _; cases ha
  | cons b L ih =>
      intro hnd a ha hq hp hqa
      rw [List.countP_cons, List.countP_cons]
      rcases List.mem_cons.mp ha with rfl | haL
      · have hLq : List.countP q L = List.countP p L :=
          List.countP_congr (fun x hx => by
            rw [hq x (List.mem_cons_of_mem _ hx)
              (fun hcon => (List.nodup_cons.mp hnd).1 (hcon ▸ hx))])
        simp [hp, hqa, hLq]
      · have hba : b ≠ a := fun hcon => (List.nodup_cons.mp hnd).1 (hcon ▸ haL)
        have hqb : q b = p b := hq b (List.mem_cons_self ..) hba
        rw [hqb]
        have := ih (List.nodup_cons.mp hnd).2 a haL
          (fun x hx hxa => hq x (List.mem_cons_of_mem _ hx) hxa) hp hqa
        omega

theorem allGroups_index_lt : ∀ g ∈ allGroups, g.index < 27 := by decide

theorem allGroups_index_inj :
    ∀ g ∈ allGroups, ∀ g' ∈ allGroups, g.index = g'.index → g = g' := by decide

theorem groupsOf_mem_allGroups :
    ∀ c ∈ List.range 81, ∀ g ∈ groupsOf c, g ∈ allGroups := by decide

theorem groupsOf_iff_cellList :
    ∀ c ∈ List.range 81, ∀ g ∈ allGroups, (g ∈ groupsOf c ↔ c ∈ g.cellList) := by decide

theorem cellList_nodup : ∀ g ∈ allGroups, g.cellList.Nodup := by decide

theorem groupsOf_nodup : ∀ c ∈ List.range 81, (groupsOf c).Nodup := by decide

theorem coherent_pvAll : coherent pvAll := by
  have hdec : ∀ g ∈ allGroups, ∀ d ∈ (List.range 9).map (· + 1),
      ofGroupCount pvAll g d = g.cellList.countP (fun c => dsHas (ofCell pvAll c) d) := by
    decide
  intro g hg d h1 h9
  refine hdec g hg d ?_
  simp only [List.mem_map, List.mem_range]
  exact ⟨d - 1, by omega, by omega⟩

theorem decrementCounter_getD (counters : List Nat) (hlen : counters.length = 243)
    {g g' : Group} (hg : g ∈ allGroups) (hg' : g' ∈ allGroups)
    {d e : Nat} (hd1 : 1 ≤ d) (hd9 : d ≤ 9) (he1 : 1 ≤ e) (he9 : e ≤ 9) :
    (decrementCounter counters g d).getD (9 * g'.index + (e - 1)) 0 =
      if g' = g ∧ e = d then counters.getD (9 * g'.index + (e - 1)) 0 - 1
      else counters.getD (9 * g'.index + (e - 1)) 0 := by
  unfold decrementCounter
  have hgi := allGroups_index_lt g hg
  have hgi' := allGroups_index_lt g' hg'
  by_cases heq : g' = g ∧ e = d
  · obtain ⟨rfl, rfl⟩ := heq
    rw [if_pos ⟨rfl, rfl⟩]
    simp only [List.getD_eq_getElem?_getD]
    rw [List.getElem?_set_self (by omega)]
    rfl
  · rw [if_neg heq]
    have hne : 9 * g.index + (d - 1) ≠ 9 * g'.index + (e - 1) := by
      intro hcon
      have hsplit : g.index = g'.index ∧ d - 1 = e - 1 := by omega
      exact heq ⟨allGroups_index_inj g' hg' g hg hsplit.1.symm, by omega⟩
    simp only [List.getD_eq_getElem?_getD]
    rw [List.getElem?_set_ne hne]

theorem removePossibility_counters {pv : PossibleValues} {c d : Nat}
    (hwf : pvWf pv) (hc : c < 81) (hd1 : 1 ≤ d) (hd9 : d ≤ 9)
    (hhas : dsHas (ofCell pv c) d = true)
    {g : Group} (hg : g ∈ allGroups) {e : Nat} (he1 : 1 ≤ e) (he9 : e ≤ 9) :
    ofGroupCount (removePossibility pv c d).1 g e =
      if g ∈ groupsOf c ∧ e = d then ofGroupCount pv g e - 1
      else ofGroupCount pv g e := by
  have hcr : c ∈ List.range 81 := List.mem_range.mpr hc
  have hga : ∀ g' ∈ groupsOf c, g' ∈ allGroups := groupsOf_mem_allGroups c hcr
  have hnd := groupsOf_nodup c hcr
  unfold removePossibility
  rw [if_pos hhas]
  show ((groupsOf c).foldl (fun cnt g => decrementCounter cnt g d) pv.counters).getD
      (9 * g.index + (e - 1)) 0 = _
  unfold groupsOf at hga hnd ⊢
  simp only [List.foldl_cons, List.foldl_nil]
  have hg1 := hga (.column (colOf c)) (by simp)
  have hg2 := hga (.row (rowOf c)) (by simp)
  have hg3 := hga (.square (squareOf c)) (by simp)
  have hlen1 : (decrementCounter pv.counters (.column (colOf c)) d).length = 243 := by
    unfold decrementCounter
    rw [List.length_set]
    exact hwf.2.1
  have hlen2 : (decrementCounter (decrementCounter pv.counters (.column (colOf c)) d)
      (.row (rowOf c)) d).length = 243 := by
    unfold decrementCounter
    rw [List.length_set]
    exact hlen1
  rw [decrementCounter_getD _ hlen2 hg3 hg hd1 hd9 he1 he9,
      decrementCounter_getD _ hlen1 hg2 hg hd1 hd9 he1 he9,
      decrementCounter_getD _ hwf.2.1 hg1 hg hd1 hd9 he1 he9]
  by_cases hed : e = d
  · by_cases h3 : g = Group.square (squareOf c)
    · subst h3
      simp [hed, ofGroupCount]
    · by_cases h2 : g = Group.row (rowOf c)
      · subst h2
        simp [hed, h3, ofGroupCount]
      · by_cases h1 : g = Group.column (colOf c)
        · subst h1
          simp [hed, h2, h3, ofGroupCount]
        · simp [hed, h1, h2, h3, ofGroupCount]
  · simp [hed, ofGroupCount]

theorem removePossibility_coherent {pv : PossibleValues} (c d : Nat)
    (hwf : pvWf pv) (hc : c < 81) (hd1 : 1 ≤ d) (hd9 : d ≤ 9) (hco : coherent pv) :
    coherent (removePossibility pv c d).1 := by
  by_cases hhas : dsHas (ofCell pv c) d
  case neg =>
    rw [removePossibility_not_has (by simpa using hhas)]
    exact hco
  intro g hg e he1 he9
  rw [removePossibility_counters hwf hc hd1 hd9 hhas hg he1 he9]
  have hcr : c ∈ List.range 81 := List.mem_range.mpr hc
  by_cases hgc : g ∈ groupsOf c ∧ e = d
  · obtain ⟨hgmem, rfl⟩ := hgc
    rw [if_pos ⟨hgmem, rfl⟩]
    have hcmem : c ∈ g.cellList := (groupsOf_iff_cellList c hcr g hg).mp hgmem
    have hflip := countP_flip (fun x => dsHas (ofCell pv x) e)
      (fun x => dsHas (ofCell (removePossibility pv c e).1 x) e)
      g.cellList (cellList_nodup g hg) c hcmem
      (fun x hx hxc => by
        dsimp only
        rw [removePossibility_cells_ne x hxc])
      hhas
      (by dsimp only
          rw [dsHas_removePossibility_self pv c e e (by rw [hwf.1]; exact hc)
            he1 he9 he1 he9]
          simp)
    rw [hco g hg e he1 he9]
    omega
  · rw [if_neg hgc]
    rw [hco g hg e he1 he9]
    refine List.countP_congr (fun x hx => ?_)
    by_cases hxc : x = c
    · subst hxc
      have hgnot : e ≠ d := by
        intro hcon
        subst hcon
        exact hgc ⟨(groupsOf_iff_cellList x hcr g hg).mpr hx, rfl⟩
      rw [dsHas_removePossibility_self pv x d e (by rw [hwf.1]; exact hc)
            hd1 hd9 he1 he9]
      have hde : (d == e) = false := by simp [Ne.symm hgnot]
      simp [hde]
    · rw [removePossibility_cells_ne x hxc]

theorem resolveFold_coherent (c d : Nat) (hc : c < 81) :
    ∀ (L : List Nat), (∀ e ∈ L, 1 ≤ e ∧ e ≤ 9) →
    ∀ st : PossibleValues × Nat, pvWf st.1 → coherent st.1 →
      pvWf (L.foldl (resolveStep c d) st).1 ∧
      coherent (L.foldl (resolveStep c d) st).1 := by
  intro L
  induction L with
  | nil => intro _ st hwf hco; exact ⟨hwf, hco⟩
  | cons a L ih =>
      intro hL st hwf hco
      obtain ⟨ha1, ha9⟩ := hL a (List.mem_cons_self ..)
      rw [List.foldl_cons]
      by_cases ha : a = d
      · rw [resolveStep_of_eq c st ha]
        exact ih (fun e he => hL e (List.mem_cons_of_mem _ he)) st hwf hco
      · rw [resolveStep_of_ne c st ha]
        exact ih (fun e he => hL e (List.mem_cons_of_mem _ he)) _
          (removePossibility_wf c a hwf)
          (removePossibility_coherent c a hwf hc ha1 ha9 hco)

theorem pvReachable_inv {pv : PossibleValues} (h : PVReachable pv) :
    pvWf pv ∧ coherent pv := by
  unfold PVReachable at h
  induction h with
  | refl => exact ⟨pvWf_all, coherent_pvAll⟩
  | tail hsteps hstep ih =>
      obtain ⟨hwf, hco⟩ := ih
      cases hstep with
      | remove c d hc hd1 hd9 =>
          exact ⟨removePossibility_wf c d hwf,
            removePossibility_coherent c d hwf hc hd1 hd9 hco⟩
      | resolve c d hc hd1 hd9 hhas =>
          exact resolveFold_coherent c d hc _
            (fun e he => ⟨(mem_dsToList.mp he).1, (mem_dsToList.mp he).2.1⟩)
            _ hwf hco

/-- C1: in every `PossibleValues` state reachable from `all()` by any
sequence of `resolve` (precondition met) and `remove_possibility` calls,
for every group and digit, the group's counter for the digit equals the
number of cells of the group whose candidate set still contains the digit. -/
theorem possibleValues_counter_invariant (pv : PossibleValues)
    (h : PVReachable pv) :
    ∀ g ∈ allGroups, ∀ d, 1 ≤ d → d ≤ 9 →
      ofGroupCount pv g d = g.cellList.countP (fun c => dsHas (ofCell pv c) d) :=
  (pvReachable_inv h).2

theorem possibleValues_counter_invariant_witness :
    ofGroupCount (removePossibility pvAll 17 4).1 (.row 1) 4 =
      (Group.row 1).cellList.countP
        (fun c => dsHas (ofCell (removePossibility pvAll 17 4).1 c) 4) :=
  possibleValues_counter_invariant (removePossibility pvAll 17 4).1
    (Relation.ReflTransGen.single (PVStep.remove pvAll 17 4 (by omega) (by omega) (by omega)))
    (.row 1) (by decide) 4 (by omega) (by omega)

/-! ### Claim C2: primitive steps preserve the Analyzer-side invariant -/

theorem refHasPair_append (log tl : List Refinement) (c d : Nat) :
    refHasPair (log ++ tl) c d = (refHasPair log c d || refHasPair tl c d) := by
  unfold refHasPair
  exact List.any_append

theorem pvShrinks_refl (pv : PossibleValues) : pvShrinks pv pv := fun c e h => h

theorem pvShrinks_trans {pv1 pv2 pv3 : PossibleValues} (h1 : pvShrinks pv1 pv2)
    (h2 : pvShrinks pv2 pv3) : pvShrinks pv1 pv3 :=
  fun c e h => h1 c e (h2 c e h)

theorem dsRemove_shrink {s d e : Nat} (h : dsHas (dsRemove s d) e = true) :
    dsHas s e = true := by
  rw [dsHas_eq_testBit] at h ⊢
  unfold dsRemove at h
  rw [Nat.testBit_land, Bool.and_eq_true] at h
  exact h.1

theorem removePossibility_shrinks (pv : PossibleValues) (c d : Nat)
    (hlen : pv.cells.length = 81) :
    pvShrinks pv (removePossibility pv c d).1 := by
  intro c' e h
  by_cases hc' : c' = c
  · subst hc'
    by_cases hh : dsHas (ofCell pv c') d
    · by_cases hclt : c' < 81
      · rw [removePossibility_cells_self (by omega) hh] at h
        exact dsRemove_shrink h
      · unfold removePossibility at h
        rw [if_pos hh] at h
        unfold ofCell at h
        rw [List.getD_eq_getElem?_getD, List.getElem?_set, if_pos rfl,
          if_neg (by omega)] at h
        rw [show (none : Option Nat).getD 0 = 0 from rfl, dsHas_zero] at h
        cases h
    · rw [removePossibility_not_has (by simpa using hh)] at h
      exact h
  · rw [removePossibility_cells_ne c' hc'] at h
    exact h

theorem resolveCore_shrinks (pv : PossibleValues) (c d : Nat)
    (hlen : pv.cells.length = 81) : pvShrinks pv (resolveCore pv c d).1 := by
  unfold resolveCore
  have hgen : ∀ (L : List Nat) (st : PossibleValues × Nat),
      st.1.cells.length = 81 → pvShrinks st.1 (L.foldl (resolveStep c d) st).1 := by
    intro L
    induction L with
    | nil => intro st _; exact pvShrinks_refl _
    | cons a L ih =>
        intro st hst
        rw [List.foldl_cons]
        by_cases ha : a = d
        · rw [resolveStep_of_eq c st ha]
          exact ih st hst
        · rw [resolveStep_of_ne c st ha]
          refine pvShrinks_trans (removePossibility_shrinks st.1 c a hst) ?_
          exact ih _ (by rw [(removePossibility_lengths ..).1]; exact hst)
  exact hgen _ (pv, 0) hlen

theorem resolveCore_wf {pv : PossibleValues} (c d : Nat) (hwf : pvWf pv) :
    pvWf (resolveCore pv c d).1 :=
  ⟨(resolveFold_lengths c d _ (pv, 0)).1.trans hwf.1,
   (resolveFold_lengths c d _ (pv, 0)).2.trans hwf.2.1,
   fun c' => lt_of_le_of_lt (resolveFold_cell_le c d _ (pv, 0) c') (hwf.2.2 c')⟩

theorem removeLogged_eq (st : PossibleValues × List Refinement) (c d : Nat)
    (reason : RefinementReason) :
    removeLogged st c d reason =
      if dsHas (ofCell st.1 c) d then
        ((removePossibility st.1 c d).1, st.2 ++ [⟨c, d, reason⟩])
      else st := by
  unfold removeLogged
  rcases hrp : removePossibility st.1 c d with ⟨pv, o⟩
  have h2 := removePossibility_snd st.1 c d
  rw [hrp] at h2
  by_cases hh : dsHas (ofCell st.1 c) d
  · rw [if_pos hh] at h2 ⊢
    subst h2
    rfl
  · rw [if_neg hh] at h2 ⊢
    subst h2
    have := removePossibility_not_has
      (show dsHas (ofCell st.1 c) d = false by simpa using hh)
    rw [this] at hrp
    cases hrp
    rfl

theorem removeLogged_AInv {st : PossibleValues × List Refinement} {c d : Nat}
    (reason : RefinementReason) (hc : c < 81) (hd1 : 1 ≤ d) (hd9 : d ≤ 9)
    (h : AInv st) :
    AInv (removeLogged st c d reason) ∧ pvShrinks st.1 (removeLogged st c d reason).1 := by
  obtain ⟨hwf, hco, hlog, hinv⟩ := h
  rw [removeLogged_eq]
  by_cases hh : dsHas (ofCell st.1 c) d
  · rw [if_pos hh]
    refine ⟨⟨removePossibility_wf c d hwf,
      removePossibility_coherent c d hwf hc hd1 hd9 hco, ?_, ?_⟩,
      removePossibility_shrinks st.1 c d hwf.1⟩
    · intro r hr
      rcases List.mem_append.mp hr with hr1 | hr2
      · exact hlog r hr1
      · rw [List.mem_singleton] at hr2
        subst hr2
        exact ⟨hc, hd1, hd9⟩
    · intro c' hc' e he1 he9
      rw [refHasPair_append]
      have hsingle : refHasPair [⟨c, d, reason⟩] c' e = (c == c' && d == e) := by
        unfold refHasPair
        simp
      rw [hsingle]
      by_cases hcc : c' = c
      · subst hcc
        rw [dsHas_removePossibility_self st.1 c' d e (by rw [hwf.1]; exact hc)
          hd1 hd9 he1 he9]
        by_cases hde : d = e
        · subst hde
          simp [hinv c' hc' d hd1 hd9]
        · have h1 : (d == e) = false := by simp [hde]
          simp [h1, hinv c' hc' e he1 he9]
      · rw [removePossibility_cells_ne c' (fun hcon => hcc hcon)]
        have h1 : (c == c') = false := by simp [Ne.symm hcc]
        simp [h1, hinv c' hc' e he1 he9]
  · rw [if_neg hh]
    exact ⟨⟨hwf, hco, hlog, hinv⟩, pvShrinks_refl _⟩

theorem resolveCore_spec (pv : PossibleValues) (c d : Nat) (hwf : pvWf pv)
    (hc : c < 81) (hd1 : 1 ≤ d) (hd9 : d ≤ 9)
    (hhas : dsHas (ofCell pv c) d = true) :
    ofCell (resolveCore pv c d).1 c = dsMask d ∧
    (resolveCore pv c d).2 = dsRemove (ofCell pv c) d ∧
    ∀ c', c' ≠ c → ofCell (resolveCore pv c d).1 c' = ofCell pv c' := by
  have h81 : c < pv.cells.length := by rw [hwf.1]; exact hc
  have hL : ∀ e ∈ dsToList (ofCell pv c), 1 ≤ e ∧ e ≤ 9 :=
    fun e he => ⟨(mem_dsToList.mp he).1, (mem_dsToList.mp he).2.1⟩
  refine ⟨?_, ?_, ?_⟩
  · refine ds_ext ?_ (dsMask_lt d hd9) ?_
    · exact lt_of_le_of_lt (resolveFold_cell_le c d _ (pv, 0) c) (hwf.2.2 c)
    · intro e' he1 he9
      rw [resolveCore, resolveFold_cell_has c d _ hL e' he1 he9 (pv, 0) h81,
          dsHas_mask d e' hd1 he1]
      by_cases hed : e' = d
      · subst hed
        simp [hhas]
      · have h1 : (d == e') = false := by simp [Ne.symm hed]
        have h2 : (e' == d) = false := by simp [hed]
        by_cases hh : dsHas (ofCell pv c) e' = true
        · have hmem : e' ∈ dsToList (ofCell pv c) := mem_dsToList.mpr ⟨he1, he9, hh⟩
          simp [hmem, h1, h2]
        · simp only [Bool.not_eq_true] at hh
          simp [hh, h1]
  · refine ds_ext ?_ ?_ ?_
    · exact resolveFold_acc_lt c d _ hL (pv, 0) (by omega)
    · exact lt_of_le_of_lt (dsRemove_le _ _) (hwf.2.2 c)
    · intro e' he1 he9
      rw [resolveCore, resolveFold_acc_has c d _ hL e' he1 he9 (pv, 0),
          dsHas_remove _ _ _ hd1 hd9 he1 he9, dsHas_zero]
      by_cases hed : e' = d
      · subst hed
        simp
      · have h1 : (d == e') = false := by simp [Ne.symm hed]
        have h2 : (e' == d) = false := by simp [hed]
        by_cases hh : dsHas (ofCell pv c) e' = true
        · have hmem : e' ∈ dsToList (ofCell pv c) := mem_dsToList.mpr ⟨he1, he9, hh⟩
          simp [hmem, h1, h2, hh]
        · have hmem : e' ∉ dsToList (ofCell pv c) := by
            intro hcon
            exact absurd (mem_dsToList.mp hcon).2.2 hh
          simp only [Bool.not_eq_true] at hh
          simp [hmem, h1, hh]
  · intro c' hne
    exact resolveFold_cells_ne c d _ (pv, 0) c' hne

theorem resolveCore_coherent {pv : PossibleValues} (c d : Nat) (hwf : pvWf pv)
    (hc : c < 81) (hco : coherent pv) : coherent (resolveCore pv c d).1 :=
  (resolveFold_coherent c d hc _
    (fun e he => ⟨(mem_dsToList.mp he).1, (mem_dsToList.mp he).2.1⟩)
    (pv, 0) hwf hco).2

theorem refHasPair_map (m c c' e : Nat) (f : Nat → RefinementReason) :
    refHasPair ((dsToList m).map (fun r => ⟨c, r, f r⟩)) c' e =
      (c == c' && decide (e ∈ dsToList m)) := by
  unfold refHasPair
  generalize dsToList m = l
  induction l with
  | nil => simp
  | cons a l ih =>
      simp only [List.map_cons, List.any_cons, ih, List.mem_cons]
      by_cases hcc : c = c'
      · subst hcc
        by_cases hae : a = e
        · subst hae
          simp
        · simp [hae, Ne.symm hae]
      · have h1 : (c == c') = false := by simp [hcc]
        simp [h1]

theorem resolveLogged_AInv {st : PossibleValues × List Refinement} {c d : Nat}
    (f : Nat → RefinementReason) (hc : c < 81) (hd1 : 1 ≤ d) (hd9 : d ≤ 9)
    (hhas : dsHas (ofCell st.1 c) d = true) (h : AInv st) :
    AInv ((resolveCore st.1 c d).1,
      st.2 ++ (dsToList (resolveCore st.1 c d).2).map (fun rm => ⟨c, rm, f rm⟩)) ∧
    pvShrinks st.1 (resolveCore st.1 c d).1 := by
  obtain ⟨hwf, hco, hlog, hinv⟩ := h
  obtain ⟨hself, hacc, hother⟩ := resolveCore_spec st.1 c d hwf hc hd1 hd9 hhas
  refine ⟨⟨resolveCore_wf c d hwf, resolveCore_coherent c d hwf hc hco, ?_, ?_⟩,
    resolveCore_shrinks st.1 c d hwf.1⟩
  · intro r hr
    rcases List.mem_append.mp hr with hr1 | hr2
    · exact hlog r hr1
    · obtain ⟨rm, hrm, hre⟩ := List.mem_map.mp hr2
      subst hre
      exact ⟨hc, (mem_dsToList.mp hrm).1, (mem_dsToList.mp hrm).2.1⟩
  · intro c' hc' e he1 he9
    rw [refHasPair_append, refHasPair_map]
    by_cases hcc : c' = c
    · subst hcc
      rw [hself, dsHas_mask d e hd1 he1]
      have hmem : e ∈ dsToList (resolveCore st.1 c' d).2 ↔
          dsHas (resolveCore st.1 c' d).2 e = true := by
        constructor
        · exact fun hm => (mem_dsToList.mp hm).2.2
        · exact fun hm => mem_dsToList.mpr ⟨he1, he9, hm⟩
      by_cases hed : e = d
      · subst hed
        have h1 : refHasPair st.2 c' e = false := by
          have := hinv c' hc' e he1 he9
          rw [hhas] at this
          exact (Bool.not_eq_true' _).mp this.symm
        have h2 : dsHas (resolveCore st.1 c' e).2 e = false := by
          rw [hacc, dsHas_remove _ _ _ hd1 hd9 he1 he9]
          simp
        simp [h1, hmem, h2]
      · have h1 : (d == e) = false := by simp [Ne.symm hed]
        have h2 : dsHas (resolveCore st.1 c' d).2 e =
            dsHas (ofCell st.1 c' ) e := by
          rw [hacc, dsHas_remove _ _ _ hd1 hd9 he1 he9, h1]
          simp
        rw [h1]
        by_cases hh : dsHas (ofCell st.1 c') e = true
        · have h3 : refHasPair st.2 c' e = false := by
            have := hinv c' hc' e he1 he9
            rw [hh] at this
            exact (Bool.not_eq_true' _).mp this.symm
          simp [h3, hmem, h2, hh]
        · have h3 : refHasPair st.2 c' e = true := by
            have := hinv c' hc' e he1 he9
            rw [Bool.not_eq_true] at hh
            rw [hh] at this
            exact (Bool.not_eq_false' _).mp this.symm
          simp [h3]
    · rw [hother c' hcc]
      have h1 : (c == c') = false := by simp [Ne.symm hcc]
      simp [h1, hinv c' hc' e he1 he9]

theorem foldl_preserve {σ β : Type} (P : σ → Prop) {f : σ → β → σ}
    (L : List β) (hstep : ∀ st x, x ∈ L → P st → P (f st x)) :
    ∀ st, P st → P (L.foldl f st) := by
  induction L with
  | nil => intro st h; exact h
  | cons a L ih =>
      intro st h
      rw [List.foldl_cons]
      exact ih (fun st x hx => hstep st x (List.mem_cons_of_mem _ hx)) _
        (hstep st a (List.mem_cons_self ..) h)

theorem foldlM_preserve {σ β : Type} (P : σ → Prop)
    {f : σ → β → Except PanicKind σ}
    (L : List β) (hstep : ∀ st x st', x ∈ L → P st → f st x = .ok st' → P st') :
    ∀ st st', P st → L.foldlM f st = .ok st' → P st' := by
  induction L with
  | nil =>
      intro st st' h hok
      simp only [List.foldlM_nil] at hok
      cases hok
      exact h
  | cons a L ih =>
      intro st st' h hok
      rw [List.foldlM_cons] at hok
      obtain ⟨mid, hmid, hrest⟩ := except_bind_ok _ _ _ |>.mp hok
      exact ih (fun st x st' hx => hstep st x st' (List.mem_cons_of_mem _ hx))
        mid st' (hstep st a mid (List.mem_cons_self ..) h hmid) hrest

theorem allGroups_cells_lt : ∀ g ∈ allGroups, ∀ x ∈ g.cellList, x < 81 := by decide

theorem groupOfIndex_mem_allGroups :
    ∀ i ∈ List.range 27, groupOfIndex i ∈ allGroups := by decide

theorem gsFirst_mem_allGroups {s : Nat} {g : Group} (h : gsFirst s = some g) :
    g ∈ allGroups := by
  unfold gsFirst at h
  rcases hf : (List.range 27).find? (fun i => s.testBit i) with _ | i
  · rw [hf] at h
    cases h
  · rw [hf] at h
    have h' : some (groupOfIndex i) = some g := h
    cases h'
    exact groupOfIndex_mem_allGroups i (List.mem_of_find?_eq_some hf)

set_option maxRecDepth 4000 in
theorem dsToList_length_all :
    ∀ s ∈ List.range 512, (dsToList s).length = dsSize s := by decide

theorem dsToList_length {s : Nat} (hs : s < 512) : (dsToList s).length = dsSize s :=
  dsToList_length_all s (List.mem_range.mpr hs)

theorem dsSingleton_of_toList {s d0 : Nat} {rest : List Nat} (hs : s < 512)
    (hsize : dsSize s ≤ 1) (htl : dsToList s = d0 :: rest) :
    s = dsMask d0 ∧ 1 ≤ d0 ∧ d0 ≤ 9 ∧ rest = [] := by
  have hd0 : d0 ∈ dsToList s := by rw [htl]; exact List.mem_cons_self ..
  obtain ⟨hd1, hd9, hhas⟩ := mem_dsToList.mp hd0
  have hlen : (dsToList s).length = dsSize s := dsToList_length hs
  rw [htl] at hlen
  have hrest : rest = [] := by
    cases rest with
    | nil => rfl
    | cons b tl => simp at hlen; omega
  refine ⟨?_, hd1, hd9, hrest⟩
  refine ds_ext hs (dsMask_lt d0 hd9) (fun e he1 he9 => ?_)
  rw [dsHas_mask d0 e hd1 he1]
  by_cases hed : e = d0
  · subst hed
    simp [hhas]
  · have h1 : (d0 == e) = false := by simp [Ne.symm hed]
    rw [h1]
    by_cases hh : dsHas s e = true
    · have hmem : e ∈ dsToList s := mem_dsToList.mpr ⟨he1, he9, hh⟩
      rw [htl, hrest] at hmem
      simp only [List.mem_singleton] at hmem
      exact absurd hmem hed
    · simpa using hh

theorem dsToList_zero : dsToList 0 = [] := by decide

theorem cellExclusionOnPlacement_AInv {st st' : PossibleValues × List Refinement}
    {p : Placement} (hc : p.cell < 81) (hd1 : 1 ≤ p.digit) (hd9 : p.digit ≤ 9)
    (h : AInv st) (hok : cellExclusionOnPlacement st p = .ok st') :
    AInv st' ∧ pvShrinks st.1 st'.1 := by
  unfold cellExclusionOnPlacement at hok
  unfold resolveChecked at hok
  by_cases hh : dsHas (ofCell st.1 p.cell) p.digit
  · rw [if_pos hh] at hok
    cases hok
    exact resolveLogged_AInv (fun r => .cellExclusion p.digit) hc hd1 hd9 hh h
  · rw [if_neg hh] at hok
    cases hok

theorem groupExclusionOnPlacement_AInv {st : PossibleValues × List Refinement}
    {p : Placement} (hc : p.cell < 81) (hd1 : 1 ≤ p.digit) (hd9 : p.digit ≤ 9)
    (h : AInv st) :
    AInv (groupExclusionOnPlacement st p) ∧
      pvShrinks st.1 (groupExclusionOnPlacement st p).1 := by
  unfold groupExclusionOnPlacement
  refine foldl_preserve (fun s => AInv s ∧ pvShrinks st.1 s.1) _ ?_ st ⟨h, pvShrinks_refl _⟩
  intro s1 g hg hs1
  refine foldl_preserve (fun s => AInv s ∧ pvShrinks st.1 s.1) _ ?_ s1 hs1
  intro s2 other hother hs2
  by_cases ho : other = p.cell
  · rw [if_pos ho]
    exact hs2
  · rw [if_neg ho]
    have hg' : g ∈ allGroups := groupsOf_mem_allGroups p.cell (List.mem_range.mpr hc) g hg
    have h81 : other < 81 := allGroups_cells_lt g hg' other hother
    obtain ⟨h2, hsh2⟩ := removeLogged_AInv (.groupExclusion p.cell g) h81 hd1 hd9 hs2.1
    exact ⟨h2, pvShrinks_trans hs2.2 hsh2⟩

theorem groupInclusionOnRefinement_AInv {st st' : PossibleValues × List Refinement}
    {r : Refinement} (hc : r.cell < 81) (hd1 : 1 ≤ r.removed) (hd9 : r.removed ≤ 9)
    (h : AInv st) (hok : groupInclusionOnRefinement st r = .ok st') :
    AInv st' ∧ pvShrinks st.1 st'.1 := by
  unfold groupInclusionOnRefinement at hok
  refine foldlM_preserve (fun s => AInv s ∧ pvShrinks st.1 s.1) _ ?_ st st'
    ⟨h, pvShrinks_refl _⟩ hok
  intro s1 g s2 hg hs1 hstep
  by_cases hcount : ofGroupCount s1.1 g r.removed ≠ 1
  · rw [if_pos hcount] at hstep
    cases hstep
    exact hs1
  · rw [if_neg hcount] at hstep
    cases hfind : g.cellList.find? (fun cand => dsHas (ofCell s1.1 cand) r.removed) with
    | none => rw [hfind] at hstep; cases hstep
    | some cand =>
        rw [hfind] at hstep
        dsimp only at hstep
        have hhas : dsHas (ofCell s1.1 cand) r.removed = true := by
          have := List.find?_some hfind
          simpa using this
        have hg' : g ∈ allGroups :=
          groupsOf_mem_allGroups r.cell (List.mem_range.mpr hc) g hg
        have h81 : cand < 81 :=
          allGroups_cells_lt g hg' cand (List.mem_of_find?_eq_some hfind)
        unfold resolveChecked at hstep
        rw [if_pos hhas] at hstep
        cases hstep
        obtain ⟨ha, hsh⟩ := resolveLogged_AInv (fun rem => .groupInclusion r.removed g)
          h81 hd1 hd9 hhas hs1.1
        exact ⟨ha, pvShrinks_trans hs1.2 hsh⟩

theorem overlapClear_AInv {st : PossibleValues × List Refinement}
    {includer og : Group} {d : Nat} (hog : og ∈ allGroups)
    (hd1 : 1 ≤ d) (hd9 : d ≤ 9) (h : AInv st) :
    AInv (overlapClear st includer og d) ∧
      pvShrinks st.1 (overlapClear st includer og d).1 := by
  unfold overlapClear
  refine foldl_preserve (fun s => AInv s ∧ pvShrinks st.1 s.1) _ ?_ st ⟨h, pvShrinks_refl _⟩
  intro s1 oc hoc hs1
  by_cases hin : includer.containsCell oc
  · simp only [hin, if_true]
    exact hs1
  · simp only [hin, Bool.false_eq_true, if_false]
    have h81 : oc < 81 := allGroups_cells_lt og hog oc hoc
    have hrl := removeLogged_AInv (.groupOverlap includer og) h81 hd1 hd9 hs1.1
    rw [removeLogged_eq] at hrl
    by_cases hh : dsHas (ofCell s1.1 oc) d
    · rw [if_pos hh] at hrl
      simp only [hh, if_true]
      exact ⟨hrl.1, pvShrinks_trans hs1.2 hrl.2⟩
    · simp only [hh, Bool.false_eq_true, if_false]
      exact hs1

theorem overlapProcessSet_AInv {st st' : PossibleValues × List Refinement}
    {includer : Group} {d s : Nat} (hd1 : 1 ≤ d) (hd9 : d ≤ 9) (h : AInv st)
    (hok : overlapProcessSet st includer d s = .ok st') :
    AInv st' ∧ pvShrinks st.1 st'.1 := by
  unfold overlapProcessSet at hok
  by_cases hsz : gsSize s > 1
  · rw [if_pos hsz] at hok
    cases hok
    exact ⟨h, pvShrinks_refl _⟩
  · rw [if_neg hsz] at hok
    cases hfst : gsFirst s with
    | none => rw [hfst] at hok; cases hok
    | some og =>
        rw [hfst] at hok
        cases hok
        exact overlapClear_AInv (gsFirst_mem_allGroups hfst) hd1 hd9 h

theorem groupOverlapIncluderStep_AInv {st st' : PossibleValues × List Refinement}
    {d : Nat} {includer : Group} (hd1 : 1 ≤ d) (hd9 : d ≤ 9) (h : AInv st)
    (hok : groupOverlapIncluderStep st d includer = .ok st') :
    AInv st' ∧ pvShrinks st.1 st'.1 := by
  unfold groupOverlapIncluderStep at hok
  by_cases hcnt : ofGroupCount st.1 includer d > SQUARE_DIMENSION
  · rw [if_pos hcnt] at hok
    cases hok
    exact ⟨h, pvShrinks_refl _⟩
  · rw [if_neg hcnt] at hok
    by_cases hab : (overlapSets st.1 includer d).1 == 0
    · rw [if_pos hab] at hok
      cases hok
      exact ⟨h, pvShrinks_refl _⟩
    · rw [if_neg hab] at hok
      cases h1 : overlapProcessSet st includer d (overlapSets st.1 includer d).1 with
      | error e => rw [h1] at hok; cases hok
      | ok st1 =>
          rw [h1] at hok
          obtain ⟨ha1, hsh1⟩ := overlapProcessSet_AInv hd1 hd9 h h1
          obtain ⟨ha2, hsh2⟩ := overlapProcessSet_AInv hd1 hd9 ha1 hok
          exact ⟨ha2, pvShrinks_trans hsh1 hsh2⟩

theorem groupOverlapOnRefinement_AInv {st st' : PossibleValues × List Refinement}
    {r : Refinement} (hd1 : 1 ≤ r.removed) (hd9 : r.removed ≤ 9)
    (h : AInv st) (hok : groupOverlapOnRefinement st r = .ok st') :
    AInv st' ∧ pvShrinks st.1 st'.1 := by
  unfold groupOverlapOnRefinement at hok
  refine foldlM_preserve (fun s => AInv s ∧ pvShrinks st.1 s.1) _ ?_ st st'
    ⟨h, pvShrinks_refl _⟩ hok
  intro s1 g s2 hg hs1 hstep
  obtain ⟨ha, hsh⟩ := groupOverlapIncluderStep_AInv hd1 hd9 hs1.1 hstep
  exact ⟨ha, pvShrinks_trans hs1.2 hsh⟩

theorem gsiRemoveLoop_AInv {st : PossibleValues × List Refinement}
    {cellsSubset digitsSubset : Nat} {g : Group} (hg : g ∈ allGroups) (h : AInv st) :
    AInv (gsiRemoveLoop st cellsSubset digitsSubset g) ∧
      pvShrinks st.1 (gsiRemoveLoop st cellsSubset digitsSubset g).1 := by
  unfold gsiRemoveLoop
  refine foldl_preserve (fun s => AInv s ∧ pvShrinks st.1 s.1) _ ?_ st ⟨h, pvShrinks_refl _⟩
  intro s1 cand hcand hs1
  by_cases hcs : csHas cellsSubset cand
  · simp only [hcs, if_true]
    exact hs1
  · simp only [hcs, Bool.false_eq_true, if_false]
    refine foldl_preserve (fun s => AInv s ∧ pvShrinks st.1 s.1) _ ?_ s1 hs1
    intro s2 dg hdg hs2
    obtain ⟨hd1, hd9, _⟩ := mem_dsToList.mp hdg
    have h81 : cand < 81 := allGroups_cells_lt g hg cand hcand
    have hrl := removeLogged_AInv (.groupSubsetInclusion cellsSubset digitsSubset g)
      h81 hd1 hd9 hs2.1
    rw [removeLogged_eq] at hrl
    by_cases hh : dsHas (ofCell s2.1 cand) dg
    · rw [if_pos hh] at hrl
      simp only [hh, if_true]
      exact ⟨hrl.1, pvShrinks_trans hs2.2 hrl.2⟩
    · simp only [hh, Bool.false_eq_true, if_false]
      exact hs2

theorem analyzeNextCell_AInv {st : PossibleValues × List Refinement} {cell : Nat}
    (hc : cell < 81) (h : AInv st) :
    AInv (analyzeNextCell st cell) ∧ pvShrinks st.1 (analyzeNextCell st cell).1 := by
  unfold analyzeNextCell
  dsimp only
  split
  · exact ⟨h, pvShrinks_refl _⟩
  · split
    · exact ⟨h, pvShrinks_refl _⟩
    · refine foldl_preserve (fun s => AInv s ∧ pvShrinks st.1 s.1) _ ?_ st
        ⟨h, pvShrinks_refl _⟩
      intro s1 g hg hs1
      dsimp only
      split
      · exact hs1
      · have hg' : g ∈ allGroups :=
          groupsOf_mem_allGroups cell (List.mem_range.mpr hc) g hg
        obtain ⟨ha, hsh⟩ := gsiRemoveLoop_AInv hg' hs1.1
        exact ⟨ha, pvShrinks_trans hs1.2 hsh⟩

theorem groupSubsetInclusionOnRefinement_AInv {st : PossibleValues × List Refinement}
    {r : Refinement} (hc : r.cell < 81) (h : AInv st) :
    AInv (groupSubsetInclusionOnRefinement st r) ∧
      pvShrinks st.1 (groupSubsetInclusionOnRefinement st r).1 := by
  unfold groupSubsetInclusionOnRefinement
  obtain ⟨h0, hsh0⟩ := analyzeNextCell_AInv hc h
  refine foldl_preserve (fun s => AInv s ∧ pvShrinks st.1 s.1) _ ?_ _ ⟨h0, hsh0⟩
  intro s1 g hg hs1
  refine foldl_preserve (fun s => AInv s ∧ pvShrinks st.1 s.1) _ ?_ s1 hs1
  intro s2 cell hcell hs2
  dsimp only
  split
  · have hg' : g ∈ allGroups := groupsOf_mem_allGroups r.cell (List.mem_range.mpr hc) g hg
    have h81 : cell < 81 := allGroups_cells_lt g hg' cell hcell
    obtain ⟨ha, hsh⟩ := analyzeNextCell_AInv h81 hs2.1
    exact ⟨ha, pvShrinks_trans hs2.2 hsh⟩
  · exact hs2

theorem placementHandler_AInv {a : Analysis} {st st' : PossibleValues × List Refinement}
    {p : Placement} (hc : p.cell < 81) (hd1 : 1 ≤ p.digit) (hd9 : p.digit ≤ 9)
    (h : AInv st) (hok : placementHandler a st p = .ok st') :
    AInv st' ∧ pvShrinks st.1 st'.1 := by
  cases a <;> unfold placementHandler at hok
  case cellExclusion => exact cellExclusionOnPlacement_AInv hc hd1 hd9 h hok
  case groupExclusion =>
    cases hok
    exact groupExclusionOnPlacement_AInv hc hd1 hd9 h
  all_goals (cases hok; exact ⟨h, pvShrinks_refl _⟩)

theorem refinementHandler_AInv {a : Analysis} {st st' : PossibleValues × List Refinement}
    {r : Refinement} (hc : r.cell < 81) (hd1 : 1 ≤ r.removed) (hd9 : r.removed ≤ 9)
    (h : AInv st) (hok : refinementHandler a st r = .ok st') :
    AInv st' ∧ pvShrinks st.1 st'.1 := by
  cases a <;> unfold refinementHandler at hok
  case groupInclusion => exact groupInclusionOnRefinement_AInv hc hd1 hd9 h hok
  case groupOverlap => exact groupOverlapOnRefinement_AInv hd1 hd9 h hok
  case groupSubsetInclusion =>
    cases hok
    exact groupSubsetInclusionOnRefinement_AInv hc h
  all_goals (cases hok; exact ⟨h, pvShrinks_refl _⟩)

theorem Cursors.get_bump (cs : Cursors) (a b : Analysis) :
    (cs.bump a).get b = if b = a then cs.get b + 1 else cs.get b := by
  cases a <;> cases b <;> simp [Cursors.bump, Cursors.get]

theorem Cursors.bump_ce (cs : Cursors) (a : Analysis) :
    (cs.bump a).ce = if a = Analysis.cellExclusion then cs.ce + 1 else cs.ce := by
  cases a <;> simp [Cursors.bump]

theorem refHasPair_take_succ {log : List Refinement} {n : Nat} {r : Refinement}
    (hn : log[n]? = some r) (c d : Nat) :
    refHasPair (log.take (n + 1)) c d =
      (refHasPair (log.take n) c d || (r.cell == c && r.removed == d)) := by
  rw [List.take_succ, hn, refHasPair_append]
  congr 1
  unfold refHasPair
  simp

theorem dsRemove_mask_self_all : ∀ d ∈ List.range 10, dsRemove (dsMask d) d = 0 := by
  decide

theorem dsSize_zero : dsSize 0 = 0 := by decide

/-- Seeding the Placer (`Placer::set_digit`) preserves the core invariant. -/
theorem placerSetDigit_coreInv {s s' : CoreState} {c d : Nat}
    (hc : c < 81) (hd1 : 1 ≤ d) (hd9 : d ≤ 9)
    (hok : placerSetDigit s c d = .ok s') (h : CoreInv s) : CoreInv s' := by
  obtain ⟨hA, hwfP, hcoP, hplJ, hunpl, hpl, hce, hcur, hpc⟩ := h
  unfold placerSetDigit at hok
  unfold resolveChecked at hok
  by_cases hh : dsHas (ofCell s.pvP c) d
  · rw [if_pos hh] at hok
    cases hok
    obtain ⟨hself, hacc, hother⟩ := resolveCore_spec s.pvP c d hwfP hc hd1 hd9 hh
    have hdigit_of_placed : ∀ p ∈ s.plJ, p.cell = c → d = p.digit := by
      intro p hp hpc'
      obtain ⟨hm1, _⟩ := hpl p hp
      have hm1' : ofCell s.pvP c = dsMask p.digit := by rw [← hpc']; exact hm1
      have hh' : dsHas (dsMask p.digit) d = true := by rw [← hm1']; exact hh
      rw [dsHas_mask p.digit d (hplJ p hp).2.1 hd1] at hh'
      have hpd : p.digit = d := by simpa using hh'
      exact hpd.symm
    have hpair : refHasPair (s.refJ.take s.pCur) c d = false := by
      by_cases hcpl : ∀ p ∈ s.plJ, p.cell ≠ c
      · have := hunpl c hc hcpl d hd1 hd9
        rw [hh] at this
        exact (Bool.not_eq_true' _).mp this.symm
      · push_neg at hcpl
        obtain ⟨p, hp, hpc'⟩ := hcpl
        have hd' := hdigit_of_placed p hp hpc'
        have := (hpl p hp).2
        rw [hpc', ← hd'] at this
        exact this
    refine ⟨hA, resolveCore_wf c d hwfP, resolveCore_coherent c d hwfP hc hcoP,
      ?_, ?_, ?_, ?_, ?_, hpc⟩
    · intro p hp
      rcases List.mem_append.mp hp with hp1 | hp2
      · exact hplJ p hp1
      · rw [List.mem_singleton] at hp2
        subst hp2
        exact ⟨hc, hd1, hd9⟩
    · intro c' hc' hnp d' hd1' hd9'
      dsimp only at hnp
      obtain ⟨hnp1, hnp2⟩ := List.forall_mem_append.mp hnp
      have hcc : c' ≠ c := fun hcon =>
        hnp2 ⟨c, d⟩ (List.mem_singleton.mpr rfl) hcon.symm
      show dsHas (ofCell (resolveCore s.pvP c d).1 c') d' =
        !refHasPair (List.take s.pCur s.refJ) c' d'
      rw [hother c' hcc]
      exact hunpl c' hc' hnp1 d' hd1' hd9'
    · intro p hp
      dsimp only at hp
      show ofCell (resolveCore s.pvP c d).1 p.cell = dsMask p.digit ∧
        refHasPair (List.take s.pCur s.refJ) p.cell p.digit = false
      rcases List.mem_append.mp hp with hp1 | hp2
      · obtain ⟨hm1, hm2⟩ := hpl p hp1
        by_cases hpc' : p.cell = c
        · have hd' := hdigit_of_placed p hp1 hpc'
          rw [hpc'] at hm2 ⊢
          rw [hself, hd']
          exact ⟨rfl, hm2⟩
        · rw [hother p.cell hpc']
          exact ⟨hm1, hm2⟩
      · rw [List.mem_singleton] at hp2
        subst hp2
        exact ⟨hself, hpair⟩
    · intro k p hk hkp
      have hk' : k < s.curP.ce := hk
      have hkp' : (s.plJ ++ [⟨c, d⟩])[k]? = some p := hkp
      have hklt : k < s.plJ.length :=
        lt_of_lt_of_le hk' (hcur .cellExclusion (by decide)).1
      rw [List.getElem?_append_left hklt] at hkp'
      exact hce k p hk' hkp'
    · intro a ha
      refine ⟨le_trans (hcur a ha).1 ?_, (hcur a ha).2⟩
      show s.plJ.length ≤ (s.plJ ++ [(⟨c, d⟩ : Placement)]).length
      rw [List.length_append]
      omega
  · rw [if_neg hh] at hok
    cases hok

/-- `Placer::handle_next_refinement` preserves the core invariant. -/
theorem placerStep_coreInv {s s' : CoreState} {ret : Option Placement}
    (hok : placerStep s = .ok (s', ret)) (h : CoreInv s) : CoreInv s' := by
  unfold placerStep at hok
  cases hr : s.refJ[s.pCur]? with
  | none =>
      rw [hr] at hok
      cases hok
      exact h
  | some r =>
      rw [hr] at hok
      dsimp only at hok
      obtain ⟨hA, hwfP, hcoP, hplJ, hunpl, hpl, hce, hcur, hpc⟩ := h
      obtain ⟨hwfA, hcoA, hrefJ, hinvA⟩ := hA
      have hrmem : r ∈ s.refJ := List.getElem?_mem hr
      obtain ⟨hrc, hrd1, hrd9⟩ := hrefJ r hrmem
      have hplt : s.pCur < s.refJ.length := (List.getElem?_eq_some_iff.mp hr).1
      have htk := fun (c d : Nat) => refHasPair_take_succ hr c d
      cases hrp : removePossibility s.pvP r.cell r.removed with
      | mk pv o =>
        rw [hrp] at hok
        have hsnd := removePossibility_snd s.pvP r.cell r.removed
        rw [hrp] at hsnd
        cases o with
        | none =>
            have hh : dsHas (ofCell s.pvP r.cell) r.removed = false := by
              by_cases hb : dsHas (ofCell s.pvP r.cell) r.removed
              · rw [if_pos hb] at hsnd
                simp at hsnd
              · simpa using hb
            have hpv : pv = s.pvP := by
              have hx := removePossibility_not_has hh
              rw [hrp] at hx
              exact congrArg Prod.fst hx
            subst hpv
            cases hok
            refine ⟨⟨hwfA, hcoA, hrefJ, hinvA⟩, hwfP, hcoP, hplJ, ?_, ?_, hce, hcur, ?_⟩
            · intro c' hc' hnp d' hd1' hd9'
              show dsHas (ofCell s.pvP c') d' =
                !refHasPair (List.take (s.pCur + 1) s.refJ) c' d'
              rw [htk c' d']
              by_cases hrcell : r.cell = c'
              · by_cases hrdd : r.removed = d'
                · subst hrcell
                  subst hrdd
                  rw [hh]
                  simp
                · have h2 : (r.removed == d') = false := by simp [hrdd]
                  simp only [h2, Bool.and_false, Bool.or_false]
                  exact hunpl c' hc' hnp d' hd1' hd9'
              · have h1 : (r.cell == c') = false := by simp [hrcell]
                simp only [h1, Bool.false_and, Bool.or_false]
                exact hunpl c' hc' hnp d' hd1' hd9'
            · intro p hp
              obtain ⟨hm1, hm2⟩ := hpl p hp
              refine ⟨hm1, ?_⟩
              show refHasPair (List.take (s.pCur + 1) s.refJ) p.cell p.digit = false
              rw [htk p.cell p.digit, hm2]
              simp only [Bool.false_or]
              by_cases hrcell : r.cell = p.cell
              · by_cases hrdd : r.removed = p.digit
                · exfalso
                  rw [hrcell, hrdd] at hh
                  rw [hm1, dsHas_mask p.digit p.digit (hplJ p hp).2.1 (hplJ p hp).2.1]
                    at hh
                  simp at hh
                · have h2 : (r.removed == p.digit) = false := by simp [hrdd]
                  simp [h2]
              · have h1 : (r.cell == p.cell) = false := by simp [hrcell]
                simp [h1]
            · show s.pCur + 1 ≤ s.refJ.length
              omega
        | some dd =>
            dsimp only at hok
            have hh : dsHas (ofCell s.pvP r.cell) r.removed = true := by
              by_cases hb : dsHas (ofCell s.pvP r.cell) r.removed
              · exact hb
              · rw [if_neg hb] at hsnd
                simp at hsnd
            have hpv : pv = (removePossibility s.pvP r.cell r.removed).1 := by
              rw [hrp]
            have hc81 : r.cell < s.pvP.cells.length := by
              rw [hwfP.1]
              exact hrc
            have hremself : ∀ e, 1 ≤ e → e ≤ 9 →
                dsHas (ofCell pv r.cell) e =
                  (dsHas (ofCell s.pvP r.cell) e && !(r.removed == e)) := by
              intro e he1 he9
              rw [hpv]
              exact dsHas_removePossibility_self s.pvP r.cell r.removed e hc81
                hrd1 hrd9 he1 he9
            have hcellne : ∀ c', c' ≠ r.cell → ofCell pv c' = ofCell s.pvP c' := by
              intro c' hcc
              rw [hpv]
              exact removePossibility_cells_ne c' hcc
            have hunplR : ∀ p ∈ s.plJ, p.cell ≠ r.cell := by
              intro p hp hcon
              obtain ⟨hm1, hm2⟩ := hpl p hp
              have hm1' : ofCell s.pvP r.cell = dsMask p.digit := by
                rw [← hcon]
                exact hm1
              have hrp_dig : r.removed = p.digit := by
                have hx := hh
                rw [hm1', dsHas_mask p.digit r.removed (hplJ p hp).2.1 hrd1] at hx
                have hy : p.digit = r.removed := by simpa using hx
                exact hy.symm
              have hzero : ofCell pv r.cell = 0 := by
                rw [hpv, removePossibility_cells_self hc81 hh, hm1', hrp_dig]
                exact dsRemove_mask_self_all p.digit
                  (List.mem_range.mpr (by omega))
              rw [hzero] at hok
              rw [dsSize_zero] at hok
              rw [if_neg (by omega)] at hok
              rw [dsToList_zero] at hok
              cases hok
            by_cases hsz : dsSize (ofCell pv r.cell) > 1
            · rw [if_pos hsz] at hok
              cases hok
              refine ⟨⟨hwfA, hcoA, hrefJ, hinvA⟩, ?_, ?_, hplJ, ?_, ?_, hce, hcur, ?_⟩
              · show pvWf pv
                rw [hpv]
                exact removePossibility_wf r.cell r.removed hwfP
              · show coherent pv
                rw [hpv]
                exact removePossibility_coherent r.cell r.removed hwfP hrc hrd1
                  hrd9 hcoP
              · intro c' hc' hnp d' hd1' hd9'
                show dsHas (ofCell pv c') d' =
                  !refHasPair (List.take (s.pCur + 1) s.refJ) c' d'
                rw [htk c' d']
                by_cases hrcell : c' = r.cell
                · subst hrcell
                  rw [hremself d' hd1' hd9', hunpl r.cell hc' hnp d' hd1' hd9']
                  by_cases hrdd : r.removed = d'
                  · subst hrdd
                    simp
                  · have h2 : (r.removed == d') = false := by simp [hrdd]
                    simp [h2]
                · rw [hcellne c' hrcell]
                  have h1 : (r.cell == c') = false := by simp [Ne.symm hrcell]
                  simp only [h1, Bool.false_and, Bool.or_false]
                  exact hunpl c' hc' hnp d' hd1' hd9'
              · intro p hp
                obtain ⟨hm1, hm2⟩ := hpl p hp
                have hne : p.cell ≠ r.cell := hunplR p hp
                refine ⟨?_, ?_⟩
                · show ofCell pv p.cell = dsMask p.digit
                  rw [hcellne p.cell hne]
                  exact hm1
                · show refHasPair (List.take (s.pCur + 1) s.refJ) p.cell p.digit = false
                  rw [htk p.cell p.digit, hm2]
                  have h1 : (r.cell == p.cell) = false := by simp [Ne.symm hne]
                  simp [h1]
              · show s.pCur + 1 ≤ s.refJ.length
                omega
            · rw [if_neg hsz] at hok
              cases htl : dsToList (ofCell pv r.cell) with
              | nil =>
                  rw [htl] at hok
                  cases hok
              | cons d0 rest =>
                  rw [htl] at hok
                  cases hok
                  have hlt512 : ofCell pv r.cell < 512 := by
                    rw [hpv]
                    exact (removePossibility_wf r.cell r.removed hwfP).2.2 r.cell
                  obtain ⟨hsingle, hd01, hd09, hrest⟩ :=
                    dsSingleton_of_toList hlt512 (by omega) htl
                  have hd0has : dsHas (ofCell pv r.cell) d0 = true := by
                    rw [hsingle, dsHas_mask d0 d0 hd01 hd01]
                    simp
                  have hd0ne : r.removed ≠ d0 := by
                    intro hcon
                    have hx := hremself d0 hd01 hd09
                    rw [hd0has, hcon] at hx
                    simp at hx
                  have hd0pvP : dsHas (ofCell s.pvP r.cell) d0 = true := by
                    have hx := hremself d0 hd01 hd09
                    rw [hd0has] at hx
                    cases hy : dsHas (ofCell s.pvP r.cell) d0
                    · rw [hy] at hx
                      simp at hx
                    · rfl
                  refine ⟨⟨hwfA, hcoA, hrefJ, hinvA⟩, ?_, ?_, ?_, ?_, ?_, ?_, ?_, ?_⟩
                  · show pvWf pv
                    rw [hpv]
                    exact removePossibility_wf r.cell r.removed hwfP
                  · show coherent pv
                    rw [hpv]
                    exact removePossibility_coherent r.cell r.removed hwfP hrc
                      hrd1 hrd9 hcoP
                  · intro p hp
                    dsimp only at hp
                    rcases List.mem_append.mp hp with hp1 | hp2
                    · exact hplJ p hp1
                    · rw [List.mem_singleton] at hp2
                      subst hp2
                      exact ⟨hrc, hd01, hd09⟩
                  · intro c' hc' hnp d' hd1' hd9'
                    dsimp only at hnp
                    obtain ⟨hnp1, hnp2⟩ := List.forall_mem_append.mp hnp
                    have hcc : c' ≠ r.cell := fun hcon =>
                      hnp2 ⟨r.cell, d0⟩ (List.mem_singleton.mpr rfl) hcon.symm
                    show dsHas (ofCell pv c') d' =
                      !refHasPair (List.take (s.pCur + 1) s.refJ) c' d'
                    rw [hcellne c' hcc, htk c' d']
                    have h1 : (r.cell == c') = false := by simp [Ne.symm hcc]
                    simp only [h1, Bool.false_and, Bool.or_false]
                    exact hunpl c' hc' hnp1 d' hd1' hd9'
                  · intro p hp
                    dsimp only at hp
                    show ofCell pv p.cell = dsMask p.digit ∧
                      refHasPair (List.take (s.pCur + 1) s.refJ) p.cell p.digit = false
                    rcases List.mem_append.mp hp with hp1 | hp2
                    · obtain ⟨hm1, hm2⟩ := hpl p hp1
                      have hne : p.cell ≠ r.cell := hunplR p hp1
                      refine ⟨?_, ?_⟩
                      · rw [hcellne p.cell hne]
                        exact hm1
                      · rw [htk p.cell p.digit, hm2]
                        have h1 : (r.cell == p.cell) = false := by simp [Ne.symm hne]
                        simp [h1]
                    · rw [List.mem_singleton] at hp2
                      subst hp2
                      refine ⟨hsingle, ?_⟩
                      rw [htk r.cell d0]
                      have holdpair :
                          refHasPair (List.take s.pCur s.refJ) r.cell d0 = false := by
                        have hx := hunpl r.cell hrc hunplR d0 hd01 hd09
                        rw [hd0pvP] at hx
                        exact (Bool.not_eq_true' _).mp hx.symm
                      rw [holdpair]
                      have h2 : (r.removed == d0) = false := by simp [hd0ne]
                      simp [h2]
                  · intro k p hk hkp
                    have hk' : k < s.curP.ce := hk
                    have hkp' : (s.plJ ++ [⟨r.cell, d0⟩])[k]? = some p := hkp
                    have hklt : k < s.plJ.length :=
                      lt_of_lt_of_le hk' (hcur .cellExclusion (by decide)).1
                    rw [List.getElem?_append_left hklt] at hkp'
                    exact hce k p hk' hkp'
                  · intro a ha
                    refine ⟨le_trans (hcur a ha).1 ?_, (hcur a ha).2⟩
                    show s.plJ.length ≤ (s.plJ ++ [(⟨r.cell, d0⟩ : Placement)]).length
                    rw [List.length_append]
                    omega
                  · show s.pCur + 1 ≤ s.refJ.length
                    omega

theorem cellExclusionOnPlacement_self {st st' : PossibleValues × List Refinement}
    {p : Placement} (hwf : pvWf st.1) (hc : p.cell < 81) (hd1 : 1 ≤ p.digit)
    (hd9 : p.digit ≤ 9) (hok : cellExclusionOnPlacement st p = .ok st') :
    ofCell st'.1 p.cell = dsMask p.digit := by
  unfold cellExclusionOnPlacement at hok
  unfold resolveChecked at hok
  by_cases hh : dsHas (ofCell st.1 p.cell) p.digit
  · rw [if_pos hh] at hok
    cases hok
    exact (resolveCore_spec st.1 p.cell p.digit hwf hc hd1 hd9 hh).1
  · rw [if_neg hh] at hok
    cases hok

/-- `Analyzer::analyze_next_placement_with` preserves the core invariant. -/
theorem anPlaceStep_coreInv {a : Analysis} {s s' : CoreState} {n : Nat}
    (hok : anPlaceStep a s = .ok (s', n)) (h : CoreInv s) : CoreInv s' := by
  unfold anPlaceStep at hok
  cases hp : s.plJ[s.curP.get a]? with
  | none =>
      rw [hp] at hok
      cases hok
      exact h
  | some p =>
      rw [hp] at hok
      dsimp only at hok
      obtain ⟨hA, hwfP, hcoP, hplJ, hunpl, hpl, hce, hcur, hpc⟩ := h
      have hpmem : p ∈ s.plJ := List.getElem?_mem hp
      obtain ⟨hpc81, hpd1, hpd9⟩ := hplJ p hpmem
      have hplt : s.curP.get a < s.plJ.length := (List.getElem?_eq_some_iff.mp hp).1
      cases hh : placementHandler a (s.pvA, s.refJ) p with
      | error e =>
          rw [hh] at hok
          cases hok
      | ok st1 =>
          obtain ⟨pv1, log1⟩ := st1
          rw [hh] at hok
          cases hok
          obtain ⟨hA1, hshr⟩ := placementHandler_AInv hpc81 hpd1 hpd9 hA hh
          obtain ⟨tl, htl⟩ := placementHandler_log hh
          have htl' : log1 = s.refJ ++ tl := htl
          refine ⟨hA1, hwfP, hcoP, hplJ, ?_, ?_, ?_, ?_, ?_⟩
          · intro c' hc' hnp d' hd1' hd9'
            show dsHas (ofCell s.pvP c') d' =
              !refHasPair (List.take s.pCur log1) c' d'
            rw [htl', List.take_append_of_le_length hpc]
            exact hunpl c' hc' hnp d' hd1' hd9'
          · intro q hq
            obtain ⟨hm1, hm2⟩ := hpl q hq
            refine ⟨hm1, ?_⟩
            show refHasPair (List.take s.pCur log1) q.cell q.digit = false
            rw [htl', List.take_append_of_le_length hpc]
            exact hm2
          · intro k q hk hkq
            have hkce : k < (s.curP.bump a).ce := hk
            rw [Cursors.bump_ce] at hkce
            have hkq' : s.plJ[k]? = some q := hkq
            intro e he1 he9 hhase
            have hhase' : dsHas (ofCell pv1 q.cell) e = true := hhase
            by_cases ha : a = Analysis.cellExclusion
            · rw [if_pos ha] at hkce
              by_cases hklt' : k < s.curP.ce
              · exact hce k q hklt' hkq' e he1 he9 (hshr q.cell e hhase')
              · have hkeq : k = s.curP.ce := by omega
                have hp' : s.plJ[s.curP.ce]? = some p := by
                  rw [ha] at hp
                  exact hp
                have hq : q = p := by
                  rw [hkeq, hp'] at hkq'
                  exact (Option.some.inj hkq').symm
                subst hq
                subst ha
                have hh' : cellExclusionOnPlacement (s.pvA, s.refJ) q
                    = .ok (pv1, log1) := hh
                have hself : ofCell pv1 q.cell = dsMask q.digit :=
                  cellExclusionOnPlacement_self hA.1 hpc81 hpd1 hpd9 hh'
                rw [hself, dsHas_mask q.digit e hpd1 he1] at hhase'
                have hqe : q.digit = e := by simpa using hhase'
                exact hqe.symm
            · rw [if_neg ha] at hkce
              exact hce k q hkce hkq' e he1 he9 (hshr q.cell e hhase')
          · intro b hb
            have h1 := hcur b hb
            constructor
            · show (s.curP.bump a).get b ≤ s.plJ.length
              rw [Cursors.get_bump]
              by_cases hba : b = a
              · rw [if_pos hba]
                subst hba
                omega
              · rw [if_neg hba]
                exact h1.1
            · show s.curR.get b ≤ log1.length
              rw [htl', List.length_append]
              omega
          · show s.pCur ≤ log1.length
            rw [htl', List.length_append]
            omega

/-- `Analyzer::analyze_next_refinement_with` preserves the core invariant. -/
theorem anRefineStep_coreInv {a : Analysis} {s s' : CoreState} {n : Nat}
    (hok : anRefineStep a s = .ok (s', n)) (h : CoreInv s) : CoreInv s' := by
  unfold anRefineStep at hok
  cases hr : s.refJ[s.curR.get a]? with
  | none =>
      rw [hr] at hok
      cases hok
      exact h
  | some r =>
      rw [hr] at hok
      dsimp only at hok
      obtain ⟨hA, hwfP, hcoP, hplJ, hunpl, hpl, hce, hcur, hpc⟩ := h
      have hrmem : r ∈ s.refJ := List.getElem?_mem hr
      obtain ⟨hrc, hrd1, hrd9⟩ := hA.2.2.1 r hrmem
      have hrlt : s.curR.get a < s.refJ.length := (List.getElem?_eq_some_iff.mp hr).1
      cases hh : refinementHandler a (s.pvA, s.refJ) r with
      | error e =>
          rw [hh] at hok
          cases hok
      | ok st1 =>
          obtain ⟨pv1, log1⟩ := st1
          rw [hh] at hok
          cases hok
          obtain ⟨hA1, hshr⟩ := refinementHandler_AInv hrc hrd1 hrd9 hA hh
          obtain ⟨tl, htl⟩ := refinementHandler_log hh
          have htl' : log1 = s.refJ ++ tl := htl
          refine ⟨hA1, hwfP, hcoP, hplJ, ?_, ?_, ?_, ?_, ?_⟩
          · intro c' hc' hnp d' hd1' hd9'
            show dsHas (ofCell s.pvP c') d' =
              !refHasPair (List.take s.pCur log1) c' d'
            rw [htl', List.take_append_of_le_length hpc]
            exact hunpl c' hc' hnp d' hd1' hd9'
          · intro q hq
            obtain ⟨hm1, hm2⟩ := hpl q hq
            refine ⟨hm1, ?_⟩
            show refHasPair (List.take s.pCur log1) q.cell q.digit = false
            rw [htl', List.take_append_of_le_length hpc]
            exact hm2
          · intro k q hk hkq
            have hk' : k < s.curP.ce := hk
            have hkq' : s.plJ[k]? = some q := hkq
            intro e he1 he9 hhase
            have hhase' : dsHas (ofCell pv1 q.cell) e = true := hhase
            exact hce k q hk' hkq' e he1 he9 (hshr q.cell e hhase')
          · intro b hb
            have h1 := hcur b hb
            constructor
            · exact h1.1
            · show (s.curR.bump a).get b ≤ log1.length
              rw [Cursors.get_bump, htl', List.length_append]
              by_cases hba : b = a
              · rw [if_pos hba]
                subst hba
                omega
              · rw [if_neg hba]
                omega
          · show s.pCur ≤ log1.length
            rw [htl', List.length_append]
            omega

theorem groupOfIndex_index : ∀ j ∈ List.range 27, (groupOfIndex j).index = j := by
  decide

theorem coreInit_coreInv : CoreInv coreInit := by
  refine ⟨⟨pvWf_all, coherent_pvAll, ?_, ?_⟩, pvWf_all, coherent_pvAll,
    ?_, ?_, ?_, ?_, ?_, ?_⟩
  · intro r hr
    cases hr
  · intro c hc d hd1 hd9
    show dsHas (ofCell pvAll c) d = !refHasPair [] c d
    rw [ofCell_pvAll hc, dsHas_full hd1 hd9]
    rfl
  · intro p hp
    cases hp
  · intro c hc hnp d hd1 hd9
    show dsHas (ofCell pvAll c) d = !refHasPair (List.take 0 []) c d
    rw [ofCell_pvAll hc, dsHas_full hd1 hd9]
    rfl
  · intro p hp
    cases hp
  · intro k p hk hkp
    cases hk
  · intro a ha
    cases a <;> exact ⟨Nat.le_refl 0, Nat.le_refl 0⟩
  · exact Nat.le_refl 0

theorem coreStep_coreInv {s s' : CoreState} (hstep : CoreStep s s')
    (h : CoreInv s) : CoreInv s' :=
  match hstep with
  | .seed _ c d _ hc hd1 hd9 hok => placerSetDigit_coreInv hc hd1 hd9 hok h
  | .placer _ _ r hok => placerStep_coreInv hok h
  | .anPlace a _ _ n hok => anPlaceStep_coreInv hok h
  | .anRefine a _ _ n hok => anRefineStep_coreInv hok h

theorem coreReachable_coreInv {s : CoreState} (h : CoreReachable s) : CoreInv s := by
  unfold CoreReachable at h
  induction h with
  | refl => exact coreInit_coreInv
  | tail hsteps hstep ih => exact coreStep_coreInv hstep ih

/-- C2: for every run of the engine (every reachable state of the
journal-connected core), whenever the Analyzer's `PossibleValues` and the
Placer's `PossibleValues` have each consumed the same prefixes of the
placement and refinement journals — at any state where both report
`is_done`, both copies having consumed the two journals in full — the two
copies are bit-for-bit equal: identical candidate sets for all cells,
identical counters for all groups and digits, and equal as structures. -/
theorem analyzer_placer_equivalence (s : CoreState) (hreach : CoreReachable s)
    (hAdone : analyzerIsDone s = true) (hPdone : placerIsDone s = true) :
    (∀ c, ofCell s.pvA c = ofCell s.pvP c) ∧
    (∀ g ∈ allGroups, ∀ d, 1 ≤ d → d ≤ 9 →
      ofGroupCount s.pvA g d = ofGroupCount s.pvP g d) ∧
    s.pvA = s.pvP := by
  obtain ⟨hA, hwfP, hcoP, hplJ, hunpl, hpl, hce, hcur, hpc⟩ :=
    coreReachable_coreInv hreach
  obtain ⟨hwfA, hcoA, hrefJ, hinvA⟩ := hA
  have hwfA' : pvWf s.pvA := hwfA
  have hcoA' : coherent s.pvA := hcoA
  have hinvA' : ∀ c, c < 81 → ∀ d, 1 ≤ d → d ≤ 9 →
      dsHas (ofCell s.pvA c) d = !refHasPair s.refJ c d := hinvA
  unfold analyzerIsDone at hAdone
  rw [List.all_eq_true] at hAdone
  have hceq : s.curP.ce = s.plJ.length := by
    have hx := hAdone Analysis.cellExclusion (by decide)
    rw [Bool.and_eq_true] at hx
    have h1 : s.curP.get .cellExclusion = s.plJ.length := by simpa using hx.1
    exact h1
  have hpcur : s.pCur = s.refJ.length := by
    unfold placerIsDone at hPdone
    simpa using hPdone
  have htake : List.take s.pCur s.refJ = s.refJ := by
    rw [hpcur]
    exact List.take_length _
  have hcell : ∀ c, ofCell s.pvA c = ofCell s.pvP c := by
    intro c
    by_cases hc : c < 81
    · by_cases hunp : ∀ p ∈ s.plJ, p.cell ≠ c
      · refine ds_ext (hwfA'.2.2 c) (hwfP.2.2 c) (fun e he1 he9 => ?_)
        rw [hinvA' c hc e he1 he9]
        have hx := hunpl c hc hunp e he1 he9
        rw [htake] at hx
        rw [hx]
      · push_neg at hunp
        obtain ⟨p, hp, hpcell⟩ := hunp
        obtain ⟨hm1, hm2⟩ := hpl p hp
        rw [htake] at hm2
        obtain ⟨hp81, hpd1, hpd9⟩ := hplJ p hp
        subst hpcell
        rw [hm1]
        obtain ⟨k, hk⟩ : ∃ n : Nat, s.plJ[n]? = some p := by
          obtain ⟨n, hn, he⟩ := List.getElem_of_mem hp
          refine ⟨n, ?_⟩
          rw [List.getElem?_eq_getElem hn, he]
        have hklt : k < s.curP.ce := by
          rw [hceq]
          exact (List.getElem?_eq_some_iff.mp hk).1
        refine ds_ext (hwfA'.2.2 p.cell) (dsMask_lt p.digit hpd9)
          (fun e he1 he9 => ?_)
        rw [dsHas_mask p.digit e hpd1 he1]
        by_cases hed : e = p.digit
        · subst hed
          rw [hinvA' p.cell hp81 p.digit he1 he9, hm2]
          simp
        · have h1 : (p.digit == e) = false := by simp [Ne.symm hed]
          rw [h1]
          cases hhe : dsHas (ofCell s.pvA p.cell) e
          · rfl
          · exact absurd (hce k p hklt hk e he1 he9 hhe) hed
    · push_neg at hc
      unfold ofCell
      rw [List.getD_eq_default _ _ (by rw [hwfA'.1]; omega),
          List.getD_eq_default _ _ (by rw [hwfP.1]; omega)]
  have hcnt : ∀ g ∈ allGroups, ∀ d, 1 ≤ d → d ≤ 9 →
      ofGroupCount s.pvA g d = ofGroupCount s.pvP g d := by
    intro g hg d hd1 hd9
    rw [hcoA' g hg d hd1 hd9, hcoP g hg d hd1 hd9]
    exact List.countP_congr (fun x _ => by rw [hcell x])
  have heq : s.pvA = s.pvP := by
    have hc1 : s.pvA.cells = s.pvP.cells := by
      refine List.ext_getElem (by rw [hwfA'.1, hwfP.1]) (fun i h1 h2 => ?_)
      have hx := hcell i
      unfold ofCell at hx
      rw [List.getD_eq_getElem _ _ h1, List.getD_eq_getElem _ _ h2] at hx
      exact hx
    have hc2 : s.pvA.counters = s.pvP.counters := by
      refine List.ext_getElem (by rw [hwfA'.2.1, hwfP.2.1]) (fun i h1 h2 => ?_)
      have hi : i < 243 := by rw [hwfA'.2.1] at h1; exact h1
      have hj : i / 9 < 27 := by omega
      have hgmem : groupOfIndex (i / 9) ∈ allGroups :=
        groupOfIndex_mem_allGroups _ (List.mem_range.mpr hj)
      have hidx : (groupOfIndex (i / 9)).index = i / 9 :=
        groupOfIndex_index _ (List.mem_range.mpr hj)
      have hcnt' := hcnt (groupOfIndex (i / 9)) hgmem (i % 9 + 1)
        (by omega) (by omega)
      unfold ofGroupCount at hcnt'
      rw [hidx] at hcnt'
      have hiden : 9 * (i / 9) + (i % 9 + 1 - 1) = i := by omega
      rw [hiden] at hcnt'
      rw [List.getD_eq_getElem _ _ h1, List.getD_eq_getElem _ _ h2] at hcnt'
      exact hcnt'
    calc s.pvA = ⟨s.pvA.cells, s.pvA.counters⟩ := rfl
      _ = ⟨s.pvP.cells, s.pvP.counters⟩ := by rw [hc1, hc2]
      _ = s.pvP := rfl
  exact ⟨hcell, hcnt, heq⟩

theorem analyzer_placer_equivalence_witness :
    CoreReachable coreInit ∧ analyzerIsDone coreInit = true ∧
    placerIsDone coreInit = true ∧ coreInit.pvA = coreInit.pvP :=
  ⟨Relation.ReflTransGen.refl, rfl, rfl,
    (analyzer_placer_equivalence coreInit Relation.ReflTransGen.refl rfl rfl).2.2⟩

end Sudidakt
